import Mathlib

/-!
Verification of the transitive-trust SDK.

This file gives a shallow embedding, in Lean 4, of the TypeScript sources of
the `transitive-trust-sdk` repository:

* `PriorityQueue` (binary max-heap over `(key, priority)` pairs backed by an
  array, here a `List`), from `PriorityQueue.ts`;
* the single-channel graph `TransitiveTrustGraph` with `addNode`, `addEdge`
  and `computeTrustScore` (Dijkstra-style greedy propagation with the
  interpolation update `old + (score - old) * weight`), from `src.ts`;
* the dual-channel graph with `addEdge(source, target, positiveWeight,
  negativeWeight)`, the private `computeScores` engine (which gates neighbour
  updates on `P(v) - N(v) < Eu`) and the public `computeTrustScores` query,
  from the generalized variant of `TransitiveTrustGraph.ts`;
* the two-node dual-channel variant `computeTrustScoresPair` (no gate), from
  the other `TransitiveTrustGraph.ts` variant.

JavaScript `number`s are modelled as `ℚ` (all the constants appearing in the
repository's tests are decimal fractions, and every operation performed by the
code is field arithmetic and comparison, so the embedding is exact on them).
JavaScript `Map`s of scores are modelled as total functions updated pointwise;
thrown `Error`s are modelled with `Except String`.
-/

namespace TTrust

/-! ## The embedded program: definitions -/

/-! ### PriorityQueue (binary max-heap), from `PriorityQueue.ts` -/

/-- `parent(i) = Math.floor((i - 1) / 2)`.  In the source the expression is
evaluated on JS numbers where `parent(0) = -1`, but it is only ever *used* at
`i > 0` (short-circuit in `heapifyUp`, never in `heapifyDown`), so `Nat`
subtraction is faithful at every use site. -/
def parentIdx (i : ℕ) : ℕ := (i - 1) / 2

/-- The priority stored at index `i` of the heap array (`heap[i].priority`).
Out-of-bounds reads return a default; the code never reads out of bounds. -/
def prioAt {α : Type} (l : List (α × ℚ)) (i : ℕ) : ℚ :=
  ((l.get? i).map Prod.snd).getD 0

/-- `swap(i, j)`: exchange the entries at `i` and `j` of the heap array. -/
def swapAt {α : Type} (l : List (α × ℚ)) (i j : ℕ) : List (α × ℚ) :=
  match l.get? i, l.get? j with
  | some a, some b => (l.set i b).set j a
  | _, _ => l

/-- The recursion of `heapifyUp`, made structural on a fuel argument so that
it evaluates inside the kernel; the index strictly decreases at every step, so
fuel `i` (used by `heapifyUp` below) always suffices. -/
def heapifyUpFuel {α : Type} : ℕ → List (α × ℚ) → ℕ → List (α × ℚ)
  | 0, l, _ => l
  | fuel + 1, l, i =>
    if 0 < i ∧ prioAt l (parentIdx i) < prioAt l i then
      heapifyUpFuel fuel (swapAt l i (parentIdx i)) (parentIdx i)
    else l

/-- `heapifyUp(i)`: sift the entry at `i` up while it is greater than its
parent. -/
def heapifyUp {α : Type} (l : List (α × ℚ)) (i : ℕ) : List (α × ℚ) :=
  heapifyUpFuel i l i

/-- The index of the largest among the entry at `i` and its (at most two)
children — the `maxIndex` computed by `heapifyDown` in the source. -/
def maxChildIdx {α : Type} (l : List (α × ℚ)) (i : ℕ) : ℕ :=
  let left := 2 * i + 1
  let right := 2 * i + 2
  let m1 := if left < l.length ∧ prioAt l i < prioAt l left then left else i
  if right < l.length ∧ prioAt l m1 < prioAt l right then right else m1

/-- The recursion of `heapifyDown`, made structural on a fuel argument so
that it evaluates inside the kernel; the index strictly increases and stays
below the (invariant) length, so fuel `l.length - i` suffices. -/
def heapifyDownFuel {α : Type} : ℕ → List (α × ℚ) → ℕ → List (α × ℚ)
  | 0, l, _ => l
  | fuel + 1, l, i =>
    if maxChildIdx l i = i then l
    else heapifyDownFuel fuel (swapAt l i (maxChildIdx l i)) (maxChildIdx l i)

/-- `heapifyDown(i)`: sift the entry at `i` down, swapping with the larger
child while a child is greater. -/
def heapifyDown {α : Type} (l : List (α × ℚ)) (i : ℕ) : List (α × ℚ) :=
  heapifyDownFuel (l.length - i) l i

/-- The priority queue: a binary max-heap stored in an array. -/
structure PQ (α : Type) where
  heap : List (α × ℚ)

/-- The freshly constructed queue (`private heap = []`). -/
def PQ.empty {α : Type} : PQ α := ⟨[]⟩

/-- `insert(key, priority)`: push onto the array, then `heapifyUp` from the
last index. -/
def PQ.insert {α : Type} (q : PQ α) (k : α) (p : ℚ) : PQ α :=
  ⟨heapifyUp (q.heap ++ [(k, p)]) q.heap.length⟩

/-- `extractMax()`: `null` on an empty heap; on a singleton pop it; otherwise
return the root, move the last entry to the root and `heapifyDown(0)`.  The
source mutates the queue and returns the entry; here the popped entry is
returned together with the new queue state. -/
def PQ.extractMax {α : Type} (q : PQ α) : Option ((α × ℚ) × PQ α) :=
  match q.heap with
  | [] => none
  | [e] => some (e, ⟨[]⟩)
  | e :: f :: rest =>
    some (e, ⟨heapifyDown (((f :: rest).getLast (List.cons_ne_nil f rest)) ::
      (f :: rest).dropLast) 0⟩)

/-- `isEmpty()`. -/
def PQ.isEmpty {α : Type} (q : PQ α) : Bool := q.heap.isEmpty

/-- `updatePriority(key, newPriority)`: find the entry with this key (no-op if
absent), overwrite its priority, then sift up if the priority increased and
down otherwise.  `findIdx?` finds the first matching index; the entry found
has key `key`, so setting the slot to `(k, p)` is the source's in-place
`heap[index].priority = newPriority`. -/
def PQ.updatePriority {α : Type} [DecidableEq α] (q : PQ α) (k : α) (p : ℚ) :
    PQ α :=
  match q.heap.findIdx? (fun e => e.1 = k) with
  | none => q
  | some i =>
    let old := prioAt q.heap i
    let l' := q.heap.set i (k, p)
    if old < p then ⟨heapifyUp l' i⟩ else ⟨heapifyDown l' i⟩

/-! ### The max-heap property and its preservation -/

/-- The binary max-heap property: every non-root entry is at most its
parent. -/
def IsHeap {α : Type} (l : List (α × ℚ)) : Prop :=
  ∀ j, j < l.length → 0 < j → prioAt l j ≤ prioAt l (parentIdx j)

/-- The heap property with a "hole" at `i` that may need to sift down:
every parent-child pair is ordered except possibly the pairs whose parent is
`i`, and the entries below the hole are still at most the hole's parent. -/
def DownExcept {α : Type} (l : List (α × ℚ)) (i : ℕ) : Prop :=
  (∀ j, j < l.length → 0 < j → parentIdx j ≠ i →
    prioAt l j ≤ prioAt l (parentIdx j)) ∧
  (∀ j, j < l.length → parentIdx j = i → 0 < i →
    prioAt l j ≤ prioAt l (parentIdx i))

/-- The heap property with a "hole" at `i` that may need to sift up:
every parent-child pair is ordered except possibly the pair `(parent i, i)`,
and the children of `i` are still at most `i`'s parent. -/
def UpExcept {α : Type} (l : List (α × ℚ)) (i : ℕ) : Prop :=
  (∀ j, j < l.length → 0 < j → j ≠ i →
    prioAt l j ≤ prioAt l (parentIdx j)) ∧
  (∀ j, j < l.length → parentIdx j = i → 0 < i →
    prioAt l j ≤ prioAt l (parentIdx i))

/-! ### Specifications of the queue operations -/

/-- The queue states reachable by some sequence of queue operations starting
from a freshly constructed queue. -/
inductive Reachable {α : Type} [DecidableEq α] : PQ α → Prop where
  | empty : Reachable PQ.empty
  | insert : ∀ {q : PQ α} (k : α) (p : ℚ), Reachable q → Reachable (q.insert k p)
  | extract : ∀ {q : PQ α} {e : α × ℚ} {q' : PQ α}, Reachable q →
      q.extractMax = some (e, q') → Reachable q'
  | update : ∀ {q : PQ α} (k : α) (p : ℚ), Reachable q →
      Reachable (q.updatePriority k p)

/-! ### The single-channel graph, from `src.ts` -/

/-- The single-channel trust graph: a set of nodes (a JS `Set`, modelled as
its insertion-ordered duplicate-free list) and a map from each node to its
out-edge list (a JS `Map` of arrays, modelled as an insertion-ordered
association list). -/
structure Graph1 where
  nodes : List String
  edges : List (String × List (String × ℚ))

def Graph1.empty : Graph1 := ⟨[], []⟩

/-- `addNode(node)`: add to the node set; create an empty out-edge array if
the node has none yet. -/
def Graph1.addNode (g : Graph1) (node : String) : Graph1 :=
  ⟨if node ∈ g.nodes then g.nodes else g.nodes ++ [node],
   if (g.edges.lookup node).isSome then g.edges else g.edges ++ [(node, [])]⟩

/-- Update the first entry for `target` in an out-edge array, or push a new
entry — the `find`/mutate-else-`push` in `addEdge`. -/
def setEdgeWeight : List (String × ℚ) → String → ℚ → List (String × ℚ)
  | [], t, w => [(t, w)]
  | e :: rest, t, w =>
    if e.1 = t then (t, w) :: rest else e :: setEdgeWeight rest t w

/-- `addEdge(source, target, weight)` of the single-channel variant: reject a
weight outside `[0, 1]`, implicitly add both endpoint nodes, then overwrite or
append the edge. -/
def Graph1.addEdge (g : Graph1) (source target : String) (weight : ℚ) :
    Except String Graph1 :=
  if weight < 0 ∨ weight > 1 then
    .error "Edge weight must be between 0 and 1"
  else
    let g1 := (g.addNode source).addNode target
    .ok ⟨g1.nodes,
      g1.edges.map fun p =>
        if p.1 = source then (p.1, setEdgeWeight p.2 target weight) else p⟩

/-- `this.edges.get(node) || []`. -/
def Graph1.outEdges (g : Graph1) (node : String) : List (String × ℚ) :=
  (g.edges.lookup node).getD []

/-- Pointwise update of a score map (`scores.set(x, v)`). -/
def updFn (f : String → ℚ) (x : String) (v : ℚ) : String → ℚ :=
  fun y => if y = x then v else f y

/-- The initialization loop of `computeTrustScore`: give the source score `1`
and every other node score `0`, inserting each node into the queue with its
score as priority. -/
def initState (nodes : List String) (source : String) :
    (String → ℚ) × PQ String :=
  nodes.foldl
    (fun sp node =>
      let score : ℚ := if node = source then 1 else 0
      (updFn sp.1 node score, sp.2.insert node score))
    (fun _ => 0, PQ.empty)

/-- The inner `for`-loop over the out-neighbours of the extracted node in
`computeTrustScore`: each uninspected neighbour is offered
`oldScore + (nodeScore - oldScore) * weight` and keeps it when it improves,
with its queue priority updated accordingly. -/
def processNbrs (inspected : List String) (nodeScore : ℚ) :
    List (String × ℚ) → (String → ℚ) × PQ String → (String → ℚ) × PQ String
  | [], sp => sp
  | (neighbor, weight) :: rest, sp =>
    if neighbor ∉ inspected then
      let oldScore := sp.1 neighbor
      let newScore := oldScore + (nodeScore - oldScore) * weight
      if newScore > oldScore then
        processNbrs inspected nodeScore rest
          (updFn sp.1 neighbor newScore, sp.2.updatePriority neighbor newScore)
      else processNbrs inspected nodeScore rest sp
    else processNbrs inspected nodeScore rest sp

/-- The main `while (!pq.isEmpty())` loop of `computeTrustScore`.  Every
iteration removes exactly one heap entry, so the loop runs exactly
`pq.heap.length` times; the structural fuel argument is instantiated with
that bound by `computeTrustScore`, making the fuel-exhausted branch
unreachable. -/
def trustLoop (g : Graph1) : ℕ → (String → ℚ) → List String → PQ String →
    (String → ℚ)
  | 0, scores, _, _ => scores
  | fuel + 1, scores, inspected, pq =>
    match pq.extractMax with
    | none => scores
    | some (e, pq') =>
      if e.1 ∈ inspected then trustLoop g fuel scores inspected pq'
      else
        let inspected' := e.1 :: inspected
        let sp := processNbrs inspected' (scores e.1) (g.outEdges e.1)
          (scores, pq')
        trustLoop g fuel sp.1 inspected' sp.2

/-- `computeTrustScore(source, target)`: `NodeNotFound` check, greedy
propagation, then `Math.max(scores.get(target) || 0, 0)`. -/
def Graph1.computeTrustScore (g : Graph1) (source target : String) :
    Except String ℚ :=
  if source ∉ g.nodes ∨ target ∉ g.nodes then
    .error "Source or target node not found in the graph"
  else
    let sp := initState g.nodes source
    let final := trustLoop g sp.2.heap.length sp.1 [] sp.2
    .ok (max (final target) 0)

/-- Extract the graph from a successful chain of `addEdge` calls (every call
in the reference scenarios succeeds, as witnessed by computation). -/
def orEmptyG1 : Except String Graph1 → Graph1
  | .ok g => g
  | .error _ => Graph1.empty

/-- The reference single-channel scenario of the spec and the test suite,
given directly as the graph value that the `addEdge` calls
`A→B=0.6, B→C=0.4, C→D=0.5, A→C=0.5` produce (see `g2_eq_addEdge_chain`). -/
def g2 : Graph1 :=
  ⟨["A", "B", "C", "D"],
   [("A", [("B", 0.6), ("C", 0.5)]), ("B", [("C", 0.4)]),
    ("C", [("D", 0.5)]), ("D", [])]⟩

/-! ### Walks and path products (for the max-product characterization) -/

/-- The single weight of the edge `u → v`, when that edge exists. -/
def edgeWeight1 (g : Graph1) (u v : String) : Option ℚ :=
  (g.outEdges u).lookup v

/-- Every consecutive pair of the list is an edge of `g`. -/
def Chain1 (g : Graph1) : List String → Prop
  | [] => True
  | [_] => True
  | u :: v :: rest => (edgeWeight1 g u v).isSome ∧ Chain1 g (v :: rest)

/-- `p` is a directed walk in `g` from `s` to `t`. -/
def IsWalk (g : Graph1) (s t : String) (p : List String) : Prop :=
  p.head? = some s ∧ p.getLast? = some t ∧ Chain1 g p

/-- The product of the edge weights along a walk. -/
def pathProd (g : Graph1) : List String → ℚ
  | [] => 1
  | [_] => 1
  | u :: v :: rest => ((edgeWeight1 g u v).getD 0) * pathProd g (v :: rest)

/-- `r` is the maximum over all directed walks from `s` to `t` of the product
of the edge weights along the walk — the claimed characterization of the
propagated score. -/
def IsMaxWalkValue (g : Graph1) (s t : String) (r : ℚ) : Prop :=
  (∃ p, IsWalk g s t p ∧ pathProd g p = r) ∧
  (∀ p, IsWalk g s t p → pathProd g p ≤ r)

/-- Well-formedness facts that `addNode`/`addEdge` maintain for every graph
they build: nodes are duplicate-free, every edge endpoint is a node, and
every weight lies in `[0, 1]`. -/
def WF1 (g : Graph1) : Prop :=
  g.nodes.Nodup ∧
  ∀ pr ∈ g.edges, pr.1 ∈ g.nodes ∧
    ∀ e ∈ pr.2, e.1 ∈ g.nodes ∧ 0 ≤ e.2 ∧ e.2 ≤ 1

/-! ### The dual-channel graph (positive and negative weights) -/

/-- One result entry of the dual-channel queries. -/
structure Score where
  positiveScore : ℚ
  negativeScore : ℚ
  netScore : ℚ

/-- The dual-channel trust graph over a directed non-multi `graphology`
graph: the node list (insertion-ordered, duplicate-free) and the edge list
`(source, target, positiveWeight, negativeWeight)` (insertion-ordered, at
most one entry per ordered pair). -/
structure DGraph where
  nodes : List String
  edges : List (String × String × ℚ × ℚ)

def DGraph.empty : DGraph := ⟨[], []⟩

/-- `addNode` (the `graph.hasNode` / `graph.addNode` part; the non-empty
string validation is performed by `addEdge` below, its only caller here). -/
def DGraph.addNode (g : DGraph) (node : String) : DGraph :=
  ⟨if node ∈ g.nodes then g.nodes else g.nodes ++ [node], g.edges⟩

def DGraph.hasEdge (g : DGraph) (s t : String) : Bool :=
  g.edges.any fun e => e.1 = s ∧ e.2.1 = t

/-- `addEdge(source, target, positiveWeight, negativeWeight)` of the
dual-channel variants: validate the node identifiers and both weight ranges,
implicitly add the endpoints, then overwrite or append the edge. -/
def DGraph.addEdge (g : DGraph) (source target : String) (pw nw : ℚ) :
    Except String DGraph :=
  if source.trim = "" then
    .error "Source must be a non-empty string"
  else if target.trim = "" then
    .error "Target must be a non-empty string"
  else if pw < 0 ∨ pw > 1 then
    .error "Positive weight must be a number between 0 and 1 (inclusive)"
  else if nw < 0 ∨ nw > 1 then
    .error "Negative weight must be a number between 0 and 1 (inclusive)"
  else
    let g1 := (g.addNode source).addNode target
    if g1.hasEdge source target then
      .ok ⟨g1.nodes,
        g1.edges.map fun e =>
          if e.1 = source ∧ e.2.1 = target then (e.1, e.2.1, pw, nw) else e⟩
    else .ok ⟨g1.nodes, g1.edges ++ [(source, target, pw, nw)]⟩

/-- `forEachOutNeighbor` together with the two `getEdgeAttribute` reads:
the `(target, positiveWeight, negativeWeight)` list of a node, in edge
insertion order. -/
def DGraph.outEdges (g : DGraph) (u : String) : List (String × ℚ × ℚ) :=
  (g.edges.filter fun e => e.1 = u).map fun e => e.2

/-- The mutable state of one dual-channel propagation: the two score maps
and the priority queue. -/
structure DState where
  p : String → ℚ
  n : String → ℚ
  pq : PQ String

/-- The neighbour loop of the *generalized* dual-channel engine
(`computeScores` of the final SDK): a neighbour is processed only when it is
uninspected AND its net score `P(v) - N(v)` is strictly below the settled
node's effective score (the gate); then each channel interpolates toward the
effective score when that channel's own condition holds, and the queue
priority becomes the new net score. -/
def processNbrsD (inspected : List String) (nodeScore : ℚ) :
    List (String × ℚ × ℚ) → DState → DState
  | [], st => st
  | (neighbor, pw, nw) :: rest, st =>
    if neighbor ∉ inspected ∧ st.p neighbor - st.n neighbor < nodeScore then
      let pv := st.p neighbor
      let nv := st.n neighbor
      let p' := if nodeScore > pv then updFn st.p neighbor (pv + (nodeScore - pv) * pw)
        else st.p
      let n' := if nodeScore > nv then updFn st.n neighbor (nv + (nodeScore - nv) * nw)
        else st.n
      processNbrsD inspected nodeScore rest
        ⟨p', n', st.pq.updatePriority neighbor (p' neighbor - n' neighbor)⟩
    else processNbrsD inspected nodeScore rest st

/-- The neighbour loop of the *two-node* dual-channel variant
(`computeTrustScores(source, target)`): identical except that the gate on the
neighbour's net score is absent, and the queue priority is always rewritten. -/
def processNbrsPair (inspected : List String) (nodeScore : ℚ) :
    List (String × ℚ × ℚ) → DState → DState
  | [], st => st
  | (neighbor, pw, nw) :: rest, st =>
    if neighbor ∉ inspected then
      let pv := st.p neighbor
      let nv := st.n neighbor
      let p' := if nodeScore > pv then updFn st.p neighbor (pv + (nodeScore - pv) * pw)
        else st.p
      let n' := if nodeScore > nv then updFn st.n neighbor (nv + (nodeScore - nv) * nw)
        else st.n
      processNbrsPair inspected nodeScore rest
        ⟨p', n', st.pq.updatePriority neighbor (p' neighbor - n' neighbor)⟩
    else processNbrsPair inspected nodeScore rest st

/-- The `while` loop of the generalized dual-channel engine: settle the
extracted node, recompute its effective score `max(P(u) - N(u), 0)`, and
process its out-neighbours.  Fuel as in `trustLoop`. -/
def dualLoop (g : DGraph) : ℕ → List String → DState → DState
  | 0, _, st => st
  | fuel + 1, inspected, st =>
    match st.pq.extractMax with
    | none => st
    | some (e, pq') =>
      if e.1 ∈ inspected then dualLoop g fuel inspected ⟨st.p, st.n, pq'⟩
      else
        let inspected' := e.1 :: inspected
        let nodeScore := max (st.p e.1 - st.n e.1) 0
        let st' := processNbrsD inspected' nodeScore (g.outEdges e.1)
          ⟨st.p, st.n, pq'⟩
        dualLoop g fuel inspected' st'

/-- The `while` loop of the two-node dual-channel variant. -/
def pairLoop (g : DGraph) : ℕ → List String → DState → DState
  | 0, _, st => st
  | fuel + 1, inspected, st =>
    match st.pq.extractMax with
    | none => st
    | some (e, pq') =>
      if e.1 ∈ inspected then pairLoop g fuel inspected ⟨st.p, st.n, pq'⟩
      else
        let inspected' := e.1 :: inspected
        let nodeScore := max (st.p e.1 - st.n e.1) 0
        let st' := processNbrsPair inspected' nodeScore (g.outEdges e.1)
          ⟨st.p, st.n, pq'⟩
        pairLoop g fuel inspected' st'

/-- The initialization loop shared by the dual-channel engines:
`P(source) = 1`, everything else `0`, every node queued with its `pScore`. -/
def initDState (nodes : List String) (source : String) : DState :=
  nodes.foldl
    (fun st node =>
      let pScore : ℚ := if node = source then 1 else 0
      ⟨updFn st.p node pScore, updFn st.n node 0, st.pq.insert node pScore⟩)
    ⟨fun _ => 0, fun _ => 0, PQ.empty⟩

/-- The private `computeScores(source)` of the generalized dual-channel
engine: `NodeNotFound` check on the source, full propagation, then the
per-node result map over every node other than the source, with
`netScore = positiveScore - negativeScore`. -/
def DGraph.computeScores (g : DGraph) (source : String) :
    Except String (List (String × Score)) :=
  if source ∉ g.nodes then
    .error ("Source node \"" ++ source ++ "\" not found in the graph")
  else
    let st0 := initDState g.nodes source
    let fin := dualLoop g st0.pq.heap.length [] st0
    .ok (g.nodes.foldl
      (fun acc node =>
        if node ≠ source then
          acc ++ [(node, ⟨fin.p node, fin.n node, fin.p node - fin.n node⟩)]
        else acc)
      [])

/-- The `targets.forEach` of `computeTrustScores`: a missing target raises
`NodeNotFound`; a target with no entry in the score map (the source itself)
is silently skipped. -/
def collectTargets (g : DGraph) (allScores : List (String × Score)) :
    List String → Except String (List (String × Score))
  | [] => .ok []
  | t :: ts =>
    if t ∉ g.nodes then
      .error ("Target node \"" ++ t ++ "\" not found in the graph")
    else
      match allScores.lookup t with
      | some sc => do
        let rest ← collectTargets g allScores ts
        .ok ((t, sc) :: rest)
      | none => collectTargets g allScores ts

/-- The public `computeTrustScores(source, targets = [])` of the generalized
engine: all-nodes results when `targets` is empty, otherwise only the
requested targets. -/
def DGraph.computeTrustScores (g : DGraph) (source : String)
    (targets : List String) : Except String (List (String × Score)) := do
  let allScores ← g.computeScores source
  if targets.length = 0 then
    .ok (allScores.foldl (fun acc pr => if pr.1 ≠ source then acc ++ [pr] else acc) [])
  else
    collectTargets g allScores targets

/-- `computeTrustScores(source, target)` of the *two-node* dual-channel
variant: check both nodes, propagate (without the net-score gate), and return
the triple for the single target. -/
def DGraph.computeTrustScoresPair (g : DGraph) (source target : String) :
    Except String Score :=
  if source ∉ g.nodes then
    .error ("Source node \"" ++ source ++ "\" not found in the graph")
  else if target ∉ g.nodes then
    .error ("Target node \"" ++ target ++ "\" not found in the graph")
  else
    let st0 := initDState g.nodes source
    let fin := pairLoop g st0.pq.heap.length [] st0
    .ok ⟨fin.p target, fin.n target, fin.p target - fin.n target⟩

/-- Modelled from the spec: the dual-channel neighbour update exactly as the
spec's §4.2 dual-channel rule states it — `if Eu > P(v)` update the positive
channel, and independently `if Eu > N(v)` update the negative channel, with
no further condition.  This is the claimed per-neighbour transition to be
compared with the engines' actual per-neighbour processing. -/
def claimedDualUpdate (nodeScore pv nv pw nw : ℚ) : ℚ × ℚ :=
  (if nodeScore > pv then pv + (nodeScore - pv) * pw else pv,
   if nodeScore > nv then nv + (nodeScore - nv) * nw else nv)

/-- Modelled from the spec: the neighbour loop that the spec's dual-channel
rule describes — like `processNbrsD` but without the net-score gate (every
uninspected neighbour receives `claimedDualUpdate`). -/
def processNbrsClaimed (inspected : List String) (nodeScore : ℚ) :
    List (String × ℚ × ℚ) → DState → DState
  | [], st => st
  | (neighbor, pw, nw) :: rest, st =>
    if neighbor ∉ inspected then
      let pn := claimedDualUpdate nodeScore (st.p neighbor) (st.n neighbor) pw nw
      processNbrsClaimed inspected nodeScore rest
        ⟨updFn st.p neighbor pn.1, updFn st.n neighbor pn.2,
         st.pq.updatePriority neighbor (pn.1 - pn.2)⟩
    else processNbrsClaimed inspected nodeScore rest st

/-- Modelled from the spec: the propagation loop exactly as the spec's
dual-channel rule describes it (the engine's loop with `processNbrsClaimed`
as the neighbour step). -/
def claimedLoop (g : DGraph) : ℕ → List String → DState → DState
  | 0, _, st => st
  | fuel + 1, inspected, st =>
    match st.pq.extractMax with
    | none => st
    | some (e, pq') =>
      if e.1 ∈ inspected then claimedLoop g fuel inspected ⟨st.p, st.n, pq'⟩
      else
        let inspected' := e.1 :: inspected
        let nodeScore := max (st.p e.1 - st.n e.1) 0
        let st' := processNbrsClaimed inspected' nodeScore (g.outEdges e.1)
          ⟨st.p, st.n, pq'⟩
        claimedLoop g fuel inspected' st'

/-! ### Schedule semantics (for tie-break dependence) -/

/-- The state of the abstract schedule semantics: the two score maps and the
list of settled nodes (most recent first). -/
structure SState where
  p : String → ℚ
  n : String → ℚ
  settled : List String

/-- The score effect of settling a node on its out-neighbours — literally
the per-neighbour processing of the generalized engine (`processNbrsD`)
restricted to the score maps. -/
def settleNbrs (settled : List String) (nodeScore : ℚ) :
    List (String × ℚ × ℚ) → (String → ℚ) × (String → ℚ) →
    (String → ℚ) × (String → ℚ)
  | [], pn => pn
  | (neighbor, pw, nw) :: rest, pn =>
    if neighbor ∉ settled ∧ pn.1 neighbor - pn.2 neighbor < nodeScore then
      let pv := pn.1 neighbor
      let nv := pn.2 neighbor
      let p' := if nodeScore > pv then updFn pn.1 neighbor (pv + (nodeScore - pv) * pw)
        else pn.1
      let n' := if nodeScore > nv then updFn pn.2 neighbor (nv + (nodeScore - nv) * nw)
        else pn.2
      settleNbrs settled nodeScore rest (p', n')
    else settleNbrs settled nodeScore rest pn

/-- Settle one node: exactly one iteration of the generalized engine's
`while` loop, as a function of which node is extracted. -/
def settleStep (g : DGraph) (st : SState) (u : String) : SState :=
  let settled' := u :: st.settled
  let nodeScore := max (st.p u - st.n u) 0
  let pn := settleNbrs settled' nodeScore (g.outEdges u) (st.p, st.n)
  ⟨pn.1, pn.2, settled'⟩

/-- Run the propagation settling nodes in the given order. -/
def runSched (g : DGraph) (source : String) (sched : List String) : SState :=
  sched.foldl (settleStep g)
    ⟨fun x => if x = source then 1 else 0, fun _ => 0, []⟩

/-- `sched` is a possible extraction order of the engine's priority queue
from the given state on: every step settles a not-yet-settled node of the
graph whose current net score is maximal among unsettled nodes (the queue
priorities are exactly the current net scores), and every node is settled by
the end. -/
def ValidFrom (g : DGraph) : SState → List String → Prop
  | st, [] => ∀ v ∈ g.nodes, v ∈ st.settled
  | st, u :: rest =>
    (u ∈ g.nodes ∧ u ∉ st.settled ∧
      ∀ v ∈ g.nodes, v ∉ st.settled →
        st.p v - st.n v ≤ st.p u - st.n u) ∧
    ValidFrom g (settleStep g st u) rest

/-- `sched` is a valid whole-run extraction order for `g` from `source`. -/
def ValidSched (g : DGraph) (source : String) (sched : List String) : Prop :=
  ValidFrom g ⟨fun x => if x = source then 1 else 0, fun _ => 0, []⟩ sched

/-! ### The graphs of the concrete scenarios -/

def orEmptyD : Except String DGraph → DGraph
  | .ok g => g
  | .error _ => DGraph.empty

/-- A single edge `A → B` with `positiveWeight 0`, `negativeWeight 1`
(both inside `[0, 1]`): the scenario making `netScore` strictly negative. -/
def g1 : DGraph := ⟨["A", "B"], [("A", "B", 0, 1)]⟩

/-- Edges `A→U (0.5, 0)`, `A→V (0.6, 0.1)`, `U→V (0, 1)`: when `U` settles
with effective score `0.5`, the neighbour `V` is unsettled with
`N(V) = 0.1 < 0.5` but net score `0.5`, so the gate skips the update that
the spec's rule mandates. -/
def g4 : DGraph :=
  ⟨["A", "U", "V"], [("A", "U", 0.5, 0), ("A", "V", 0.6, 0.1), ("U", "V", 0, 1)]⟩

/-- Edges `S→U (1,0)`, `S→V (1,0)`, `U→W (1,0)`, `V→W (0,1)`: after `S`
settles, `U` and `V` are tied at net score `1`, and the two extraction orders
leave `W` with different final scores. -/
def g5 : DGraph :=
  ⟨["S", "U", "V", "W"],
   [("S", "U", 1, 0), ("S", "V", 1, 0), ("U", "W", 1, 0), ("V", "W", 0, 1)]⟩

/-- Well-formedness for dual graphs: duplicate-free nodes, edge endpoints
are nodes, and both weights lie in `[0, 1]`. -/
def WFD (g : DGraph) : Prop :=
  g.nodes.Nodup ∧
  ∀ e ∈ g.edges, e.1 ∈ g.nodes ∧ e.2.1 ∈ g.nodes ∧
    0 ≤ e.2.2.1 ∧ e.2.2.1 ≤ 1 ∧ 0 ≤ e.2.2.2 ∧ e.2.2.2 ≤ 1

/-! ### The signed single-channel mode (absent from the sources provided) -/

/-- Modelled from the spec: the `addEdge` of the *signed single-channel*
variant.  Its implementation is not among the provided sources — only its
test (`expect(() => graph.addEdge("A", "B", 1.5)).toThrow("Weight must be a
number between -1 and 1 (exclusive)")`) and the README (`weight` from `-1`
to `1`, exclusive) refer to it — so the weight validation is modelled from
the spec's words: a weight is accepted iff it lies strictly between `-1`
and `1`, and rejected with the `InvalidWeight` error otherwise.  The graph
update on acceptance reuses the dual-graph container, feeding the channel
selected by the weight's sign with the weight's absolute value. -/
def addEdgeSigned (g : DGraph) (source target : String) (weight : ℚ) :
    Except String DGraph :=
  if weight ≤ -1 ∨ 1 ≤ weight then
    .error "Weight must be a number between -1 and 1 (exclusive)"
  else if 0 ≤ weight then
    .ok ⟨((g.addNode source).addNode target).nodes,
      ((g.addNode source).addNode target).edges ++ [(source, target, weight, 0)]⟩
  else
    .ok ⟨((g.addNode source).addNode target).nodes,
      ((g.addNode source).addNode target).edges ++ [(source, target, 0, -weight)]⟩

/-! ### Concrete evaluation of the reference single-channel scenario -/

def g2s0 : String → ℚ :=
  updFn (updFn (updFn (updFn (fun _ => 0) "A" 1) "B" 0) "C" 0) "D" 0

def g2s1 : String → ℚ := updFn (updFn g2s0 "B" (3/5)) "C" (1/2)

def g2s2 : String → ℚ := updFn g2s1 "C" (27/50)

def g2s3 : String → ℚ := updFn g2s2 "D" (27/100)

/-! ### Bounds and monotonicity of the dual-channel propagation -/

/-- A sample queue state, reached by two insertions into a fresh queue. -/
def sampleQ : PQ String := (PQ.empty.insert "a" 1).insert "b" 2

/-! ## The verification: theorems -/

theorem parentIdx_lt {i : ℕ} (h : 0 < i) : parentIdx i < i :=
  Nat.lt_of_le_of_lt (Nat.div_le_self _ 2) (Nat.sub_lt h one_pos)

theorem length_swapAt {α : Type} (l : List (α × ℚ)) (i j : ℕ) :
    (swapAt l i j).length = l.length := by
  unfold swapAt
  cases hi : l.get? i <;> cases hj : l.get? j <;> simp

theorem heapifyUpFuel_congr {α : Type} :
    ∀ (f1 f2 : ℕ) (l : List (α × ℚ)) (i : ℕ), i ≤ f1 → i ≤ f2 →
      heapifyUpFuel f1 l i = heapifyUpFuel f2 l i := by
  intro f1
  induction f1 with
  | zero =>
    intro f2 l i h1 h2
    have hi : i = 0 := Nat.le_zero.mp h1
    subst hi
    cases f2 with
    | zero => rfl
    | succ f2 => simp [heapifyUpFuel]
  | succ f1 ih =>
    intro f2 l i h1 h2
    cases f2 with
    | zero =>
      have hi : i = 0 := Nat.le_zero.mp h2
      subst hi
      simp [heapifyUpFuel]
    | succ f2 =>
      show heapifyUpFuel (f1 + 1) l i = heapifyUpFuel (f2 + 1) l i
      unfold heapifyUpFuel
      split_ifs with hc
      · exact ih f2 _ _ (by have := parentIdx_lt hc.1; omega)
          (by have := parentIdx_lt hc.1; omega)
      · rfl

/-- The defining recurrence of `heapifyUp` (the `while` loop of the source). -/
theorem heapifyUp_eq {α : Type} (l : List (α × ℚ)) (i : ℕ) :
    heapifyUp l i =
      if 0 < i ∧ prioAt l (parentIdx i) < prioAt l i then
        heapifyUp (swapAt l i (parentIdx i)) (parentIdx i)
      else l := by
  by_cases hc : 0 < i ∧ prioAt l (parentIdx i) < prioAt l i
  · rw [if_pos hc]
    obtain ⟨n, hn⟩ : ∃ n, i = n + 1 := ⟨i - 1, by omega⟩
    subst hn
    show (if 0 < n + 1 ∧ prioAt l (parentIdx (n + 1)) < prioAt l (n + 1) then
        heapifyUpFuel n (swapAt l (n + 1) (parentIdx (n + 1))) (parentIdx (n + 1))
      else l) = _
    rw [if_pos hc]
    exact heapifyUpFuel_congr n (parentIdx (n + 1)) _ _
      (by have := parentIdx_lt hc.1; omega) le_rfl
  · rw [if_neg hc]
    cases i with
    | zero => rfl
    | succ n =>
      show (if 0 < n + 1 ∧ prioAt l (parentIdx (n + 1)) < prioAt l (n + 1) then
          heapifyUpFuel n (swapAt l (n + 1) (parentIdx (n + 1)))
            (parentIdx (n + 1))
        else l) = l
      rw [if_neg hc]

theorem maxChildIdx_spec {α : Type} (l : List (α × ℚ)) (i : ℕ) :
    maxChildIdx l i = i ∨ (i < maxChildIdx l i ∧ maxChildIdx l i < l.length) := by
  unfold maxChildIdx
  simp only []
  split_ifs with h1 h2 h2
  · exact Or.inr ⟨by omega, h2.1⟩
  · exact Or.inr ⟨by omega, h1.1⟩
  · exact Or.inr ⟨by omega, h2.1⟩
  · exact Or.inl rfl

theorem heapifyDownFuel_congr {α : Type} :
    ∀ (f1 f2 : ℕ) (l : List (α × ℚ)) (i : ℕ),
      l.length - i ≤ f1 → l.length - i ≤ f2 →
      heapifyDownFuel f1 l i = heapifyDownFuel f2 l i := by
  intro f1
  induction f1 with
  | zero =>
    intro f2 l i h1 h2
    have hm : maxChildIdx l i = i := by
      rcases maxChildIdx_spec l i with h | h
      · exact h
      · omega
    cases f2 with
    | zero => rfl
    | succ f2 => simp [heapifyDownFuel, hm]
  | succ f1 ih =>
    intro f2 l i h1 h2
    cases f2 with
    | zero =>
      have hm : maxChildIdx l i = i := by
        rcases maxChildIdx_spec l i with h | h
        · exact h
        · omega
      simp [heapifyDownFuel, hm]
    | succ f2 =>
      show heapifyDownFuel (f1 + 1) l i = heapifyDownFuel (f2 + 1) l i
      unfold heapifyDownFuel
      split_ifs with hc
      · rfl
      · rcases maxChildIdx_spec l i with h | h
        · exact absurd h hc
        · exact ih f2 _ _ (by rw [length_swapAt]; omega)
            (by rw [length_swapAt]; omega)

/-- The defining recurrence of `heapifyDown` (the recursive call of the
source). -/
theorem heapifyDown_eq {α : Type} (l : List (α × ℚ)) (i : ℕ) :
    heapifyDown l i =
      if maxChildIdx l i = i then l
      else heapifyDown (swapAt l i (maxChildIdx l i)) (maxChildIdx l i) := by
  by_cases hc : maxChildIdx l i = i
  · rw [if_pos hc]
    show heapifyDownFuel (l.length - i) l i = l
    cases hn : l.length - i with
    | zero => rfl
    | succ n =>
      show (if maxChildIdx l i = i then l
        else heapifyDownFuel n (swapAt l i (maxChildIdx l i)) (maxChildIdx l i)) = l
      rw [if_pos hc]
  · rw [if_neg hc]
    rcases maxChildIdx_spec l i with h | h
    · exact absurd h hc
    · show heapifyDownFuel (l.length - i) l i = _
      obtain ⟨n, hn⟩ : ∃ n, l.length - i = n + 1 := ⟨l.length - i - 1, by omega⟩
      rw [hn]
      show (if maxChildIdx l i = i then l
        else heapifyDownFuel n (swapAt l i (maxChildIdx l i)) (maxChildIdx l i)) = _
      rw [if_neg hc]
      exact heapifyDownFuel_congr n
        ((swapAt l i (maxChildIdx l i)).length - maxChildIdx l i)
        (swapAt l i (maxChildIdx l i)) (maxChildIdx l i)
        (by rw [length_swapAt]; omega) le_rfl

/-! ### Basic facts about the heap array operations -/

theorem parentIdx_child_left (i : ℕ) : parentIdx (2 * i + 1) = i := by
  unfold parentIdx; omega

theorem parentIdx_child_right (i : ℕ) : parentIdx (2 * i + 2) = i := by
  unfold parentIdx; omega

theorem parentIdx_eq_iff {i j : ℕ} (hj : 0 < j) :
    parentIdx j = i ↔ j = 2 * i + 1 ∨ j = 2 * i + 2 := by
  unfold parentIdx; omega

theorem get?_swapAt {α : Type} {l : List (α × ℚ)} {i j : ℕ}
    (hi : i < l.length) (hj : j < l.length) (k : ℕ) :
    (swapAt l i j).get? k =
      if k = j then l.get? i else if k = i then l.get? j else l.get? k := by
  have ha : l.get? i = some (l.get ⟨i, hi⟩) := List.get?_eq_get hi
  have hb : l.get? j = some (l.get ⟨j, hj⟩) := List.get?_eq_get hj
  unfold swapAt
  rw [ha, hb]
  show ((l.set i (l.get ⟨j, hj⟩)).set j (l.get ⟨i, hi⟩)).get? k = _
  by_cases hkj : k = j
  · subst hkj
    rw [List.get?_set_eq_of_lt _ (by simpa using hj), if_pos rfl]
  · rw [List.get?_set_ne _ _ fun h => hkj h.symm]
    by_cases hki : k = i
    · subst hki
      rw [List.get?_set_eq_of_lt _ hi, if_neg hkj, if_pos rfl]
    · rw [List.get?_set_ne _ _ fun h => hki h.symm, if_neg hkj, if_neg hki]

theorem cons_set_perm {β : Type} :
    ∀ (xs : List β) (n : ℕ) (v w : β), xs.get? n = some w →
      (w :: xs.set n v).Perm (v :: xs)
  | [], n, v, w, h => by simp at h
  | x :: xs, 0, v, w, h => by
    simp only [List.get?] at h
    cases h
    exact List.Perm.swap v x xs
  | x :: xs, n + 1, v, w, h => by
    simp only [List.get?] at h
    have ih := cons_set_perm xs n v w h
    have s1 : (w :: x :: xs.set n v).Perm (x :: w :: xs.set n v) :=
      List.Perm.swap x w _
    have s2 : (x :: w :: xs.set n v).Perm (x :: (v :: xs)) := ih.cons x
    have s3 : (x :: v :: xs).Perm (v :: x :: xs) := List.Perm.swap v x xs
    exact (s1.trans (s2.trans s3))

theorem get?_lt_length {β : Type} {l : List β} {i : ℕ} {a : β}
    (h : l.get? i = some a) : i < l.length := by
  rw [List.get?_eq_getElem?] at h
  exact (List.getElem?_eq_some_iff.mp h).1

theorem set_get?_self {β : Type} {l : List β} {i : ℕ} {a : β}
    (h : l.get? i = some a) : l.set i a = l := by
  apply List.ext_get?
  intro k
  by_cases hk : k = i
  · subst hk
    rw [List.get?_set_eq_of_lt _ (get?_lt_length h), h]
  · rw [List.get?_set_ne _ _ fun hh => hk hh.symm]

theorem swapAt_perm {α : Type} (l : List (α × ℚ)) (i j : ℕ) :
    (swapAt l i j).Perm l := by
  unfold swapAt
  cases ha : l.get? i with
  | none => exact List.Perm.refl l
  | some a =>
    cases hb : l.get? j with
    | none => exact List.Perm.refl l
    | some b =>
      show ((l.set i b).set j a).Perm l
      by_cases hij : i = j
      · subst hij
        have hab : a = b := by rw [ha] at hb; exact Option.some_injective _ hb
        subst hab
        rw [List.set_set, set_get?_self ha]
      · have hb' : (l.set i b).get? j = some b :=
          (List.get?_set_ne b l hij).trans hb
        have h2 := cons_set_perm (l.set i b) j a b hb'
        have h1 := cons_set_perm l i b a ha
        exact (h2.trans h1).cons_inv

theorem perm_heapifyUp {α : Type} : ∀ (l : List (α × ℚ)) (i : ℕ),
    (heapifyUp l i).Perm l := by
  intro l i
  induction i using Nat.strong_induction_on generalizing l with
  | _ i IH =>
    rw [heapifyUp_eq]
    split
    · rename_i h
      exact (IH (parentIdx i) (parentIdx_lt h.1) _).trans (swapAt_perm l i _)
    · exact List.Perm.refl l

theorem perm_heapifyDown {α : Type} : ∀ (l : List (α × ℚ)) (i : ℕ),
    (heapifyDown l i).Perm l := by
  intro l i
  generalize hn : l.length - i = n
  induction n using Nat.strong_induction_on generalizing l i with
  | _ n IH =>
    rw [heapifyDown_eq]
    split
    · exact List.Perm.refl l
    · rename_i hne
      rcases maxChildIdx_spec l i with h | h
      · exact absurd h hne
      · have hlt : (swapAt l i (maxChildIdx l i)).length - maxChildIdx l i < n := by
          rw [length_swapAt]; omega
        exact (IH _ hlt _ _ rfl).trans (swapAt_perm l i _)

theorem length_heapifyUp {α : Type} (l : List (α × ℚ)) (i : ℕ) :
    (heapifyUp l i).length = l.length :=
  (perm_heapifyUp l i).length_eq

theorem length_heapifyDown {α : Type} (l : List (α × ℚ)) (i : ℕ) :
    (heapifyDown l i).length = l.length :=
  (perm_heapifyDown l i).length_eq

/-! ### The max-heap property and its preservation -/

theorem prioAt_swapAt {α : Type} {l : List (α × ℚ)} {i j : ℕ}
    (hi : i < l.length) (hj : j < l.length) (k : ℕ) :
    prioAt (swapAt l i j) k =
      if k = j then prioAt l i else if k = i then prioAt l j else prioAt l k := by
  unfold prioAt
  rw [get?_swapAt hi hj k]
  by_cases hkj : k = j
  · subst hkj
    simp
  · by_cases hki : k = i
    · subst hki
      simp [hkj]
    · simp [hkj, hki]

theorem maxChildIdx_self_le {α : Type} (l : List (α × ℚ)) (i : ℕ) :
    prioAt l i ≤ prioAt l (maxChildIdx l i) := by
  unfold maxChildIdx
  simp only []
  split_ifs with h1 h2 h2
  · exact le_of_lt (lt_trans h1.2 h2.2)
  · exact le_of_lt h1.2
  · exact le_of_lt h2.2
  · exact le_rfl

theorem maxChildIdx_children_le {α : Type} (l : List (α × ℚ)) (i : ℕ)
    (j : ℕ) (hj : j < l.length) (hij : j = 2 * i + 1 ∨ j = 2 * i + 2) :
    prioAt l j ≤ prioAt l (maxChildIdx l i) := by
  unfold maxChildIdx
  simp only []
  split_ifs with h1 h2 h2
  · rcases hij with rfl | rfl
    · exact le_of_lt h2.2
    · exact le_rfl
  · rcases hij with rfl | rfl
    · exact le_rfl
    · push_neg at h2
      exact h2 hj
  · rcases hij with rfl | rfl
    · push_neg at h1
      exact le_of_lt (lt_of_le_of_lt (h1 hj) h2.2)
    · exact le_rfl
  · rcases hij with rfl | rfl
    · push_neg at h1
      exact h1 hj
    · push_neg at h2
      exact h2 hj

theorem maxChildIdx_eq_child {α : Type} {l : List (α × ℚ)} {i : ℕ}
    (hne : maxChildIdx l i ≠ i) :
    maxChildIdx l i = 2 * i + 1 ∨ maxChildIdx l i = 2 * i + 2 := by
  unfold maxChildIdx at hne ⊢
  simp only [] at hne ⊢
  split_ifs at hne ⊢ with h1 h2 h2
  · exact Or.inr rfl
  · exact Or.inl rfl
  · exact Or.inr rfl
  · exact absurd rfl hne

theorem heapifyDown_isHeap {α : Type} :
    ∀ (l : List (α × ℚ)) (i : ℕ), DownExcept l i → IsHeap (heapifyDown l i) := by
  intro l i
  generalize hn : l.length - i = n
  induction n using Nat.strong_induction_on generalizing l i with
  | _ n IH =>
    intro hD
    rw [heapifyDown_eq]
    split
    · rename_i hEq
      intro j hj hj0
      by_cases hpj : parentIdx j = i
      · have hchild : j = 2 * i + 1 ∨ j = 2 * i + 2 :=
          (parentIdx_eq_iff hj0).mp hpj
        rw [hpj]
        calc prioAt l j ≤ prioAt l (maxChildIdx l i) :=
              maxChildIdx_children_le l i j hj hchild
          _ = prioAt l i := by rw [hEq]
      · exact hD.1 j hj hj0 hpj
    · rename_i hne
      rcases maxChildIdx_spec l i with h | h
      · exact absurd h hne
      obtain ⟨him, hml⟩ := h
      have hil : i < l.length := lt_trans him hml
      have hpm : parentIdx (maxChildIdx l i) = i := by
        rcases maxChildIdx_eq_child hne with hc | hc <;> rw [hc] <;>
          [exact parentIdx_child_left i; exact parentIdx_child_right i]
      have hv : ∀ k, prioAt (swapAt l i (maxChildIdx l i)) k =
          if k = maxChildIdx l i then prioAt l i
          else if k = i then prioAt l (maxChildIdx l i) else prioAt l k :=
        prioAt_swapAt hil hml
      have hlen : (swapAt l i (maxChildIdx l i)).length = l.length :=
        length_swapAt l i _
      apply IH _ (by rw [hlen]; omega) _ _ rfl
      constructor
      · -- ordered pairs away from the new hole
        intro j hj hj0 hpj
        rw [hlen] at hj
        by_cases hjm : j = maxChildIdx l i
        · subst hjm
          rw [hv, if_pos rfl, hpm, hv, if_neg (Nat.ne_of_lt him), if_pos rfl]
          exact maxChildIdx_self_le l i
        · by_cases hji : j = i
          · rw [hji]
            have h0i : 0 < i := hji ▸ hj0
            have hpi_ne_i : parentIdx i ≠ i := Nat.ne_of_lt (parentIdx_lt h0i)
            have hpi_ne_m : parentIdx i ≠ maxChildIdx l i :=
              Nat.ne_of_lt (lt_trans (parentIdx_lt h0i) him)
            rw [hv, if_neg (Nat.ne_of_lt him), if_pos rfl, hv, if_neg hpi_ne_m,
              if_neg hpi_ne_i]
            exact hD.2 (maxChildIdx l i) hml hpm h0i
          · rw [hv, if_neg hjm, if_neg hji]
            by_cases hpji : parentIdx j = i
            · rw [hpji, hv, if_neg (Nat.ne_of_lt him), if_pos rfl]
              exact maxChildIdx_children_le l i j hj ((parentIdx_eq_iff hj0).mp hpji)
            · rw [hv, if_neg hpj, if_neg hpji]
              exact hD.1 j hj hj0 hpji
      · -- entries below the new hole
        intro j hj hpj hm0
        rw [hlen] at hj
        have hj0 : 0 < j := by
          by_contra hj0'
          push_neg at hj0'
          interval_cases j
          simp [parentIdx] at hpj
          omega
        have hmj : maxChildIdx l i < j := by
          have h2 := (parentIdx_eq_iff hj0).mp hpj
          omega
        have hjne_m : j ≠ maxChildIdx l i := by omega
        have hjne_i : j ≠ i := by omega
        rw [hpm, hv, if_neg hjne_m, if_neg hjne_i, hv,
          if_neg (Nat.ne_of_lt him), if_pos rfl]
        have hD1 := hD.1 j hj hj0 (by rw [hpj]; exact (Nat.ne_of_lt him).symm)
        rwa [hpj] at hD1

theorem heapifyUp_isHeap {α : Type} :
    ∀ (i : ℕ) (l : List (α × ℚ)), i < l.length → UpExcept l i →
      IsHeap (heapifyUp l i) := by
  intro i
  induction i using Nat.strong_induction_on with
  | _ i IH =>
    intro l hil hU
    rw [heapifyUp_eq]
    split
    · rename_i hc
      obtain ⟨hi0, hlt⟩ := hc
      have hpl : parentIdx i < l.length := lt_trans (parentIdx_lt hi0) hil
      have hv : ∀ k, prioAt (swapAt l i (parentIdx i)) k =
          if k = parentIdx i then prioAt l i
          else if k = i then prioAt l (parentIdx i) else prioAt l k :=
        prioAt_swapAt hil hpl
      have hlen : (swapAt l i (parentIdx i)).length = l.length :=
        length_swapAt l i _
      apply IH (parentIdx i) (parentIdx_lt hi0) _ (by omega)
      constructor
      · intro j hj hj0 hjp
        rw [hlen] at hj
        by_cases hji : j = i
        · rw [hji]
          have hpp : i ≠ parentIdx i := (Nat.ne_of_lt (parentIdx_lt hi0)).symm
          rw [hv, if_neg hpp, if_pos rfl, hv, if_pos rfl]
          exact le_of_lt hlt
        · rw [hv, if_neg hjp, if_neg hji]
          by_cases hpjp : parentIdx j = parentIdx i
          · -- `j` is the sibling of `i` (or another child of `i`'s parent)
            rw [hpjp, hv, if_pos rfl]
            exact le_of_lt (lt_of_le_of_lt ((hpjp ▸ hU.1 j hj hj0 hji)) hlt)
          · by_cases hpji : parentIdx j = i
            · -- `j` is a child of `i`
              rw [hpji, hv, if_neg (Nat.ne_of_lt (parentIdx_lt hi0)).symm,
                if_pos rfl]
              exact hU.2 j hj hpji hi0
            · rw [hv, if_neg hpjp, if_neg hpji]
              exact hU.1 j hj hj0 hji
      · intro j hj hjp hp0
        rw [hlen] at hj
        have hppp : parentIdx (parentIdx i) < parentIdx i := parentIdx_lt hp0
        have hp_ne1 : parentIdx (parentIdx i) ≠ parentIdx i := Nat.ne_of_lt hppp
        have hp_ne2 : parentIdx (parentIdx i) ≠ i :=
          Nat.ne_of_lt (lt_trans hppp (parentIdx_lt hi0))
        have hj0 : 0 < j := by
          rcases Nat.eq_zero_or_pos j with rfl | h
          · have h00 : parentIdx 0 = 0 := rfl
            omega
          · exact h
        rw [hv (parentIdx (parentIdx i)), if_neg hp_ne1, if_neg hp_ne2]
        by_cases hji : j = i
        · rw [hji, hv i, if_neg (Nat.ne_of_lt (parentIdx_lt hi0)).symm, if_pos rfl]
          exact hU.1 (parentIdx i) hpl hp0 (Nat.ne_of_lt (parentIdx_lt hi0))
        · have hjne_p : j ≠ parentIdx i := by
            have := parentIdx_lt hj0
            omega
          rw [hv j, if_neg hjne_p, if_neg hji]
          calc prioAt l j ≤ prioAt l (parentIdx j) := hU.1 j hj hj0 hji
            _ = prioAt l (parentIdx i) := by rw [hjp]
            _ ≤ prioAt l (parentIdx (parentIdx i)) :=
                hU.1 (parentIdx i) hpl hp0 (Nat.ne_of_lt (parentIdx_lt hi0))
    · rename_i hc
      push_neg at hc
      intro j hj hj0
      by_cases hji : j = i
      · rw [hji]
        exact hc (hji ▸ hj0)
      · exact hU.1 j hj hj0 hji

/-- In a max-heap the root has the greatest priority. -/
theorem isHeap_le_root {α : Type} {l : List (α × ℚ)} (h : IsHeap l) :
    ∀ i, i < l.length → prioAt l i ≤ prioAt l 0 := by
  intro i
  induction i using Nat.strong_induction_on with
  | _ i IH =>
    intro hi
    rcases Nat.eq_zero_or_pos i with rfl | hi0
    · exact le_rfl
    · calc prioAt l i ≤ prioAt l (parentIdx i) := h i hi hi0
        _ ≤ prioAt l 0 :=
          IH (parentIdx i) (parentIdx_lt hi0) (lt_trans (parentIdx_lt hi0) hi)

/-! ### Specifications of the queue operations -/

theorem prioAt_eq {α : Type} {l : List (α × ℚ)} {i : ℕ} {e : α × ℚ}
    (h : l.get? i = some e) : prioAt l i = e.2 := by
  unfold prioAt
  rw [h]
  rfl

theorem prioAt_append {α : Type} {l l' : List (α × ℚ)} {j : ℕ}
    (h : j < l.length) : prioAt (l ++ l') j = prioAt l j := by
  unfold prioAt
  rw [List.get?_append h]

theorem prioAt_set {α : Type} {l : List (α × ℚ)} {i : ℕ} (hi : i < l.length)
    (a : α × ℚ) (k : ℕ) :
    prioAt (l.set i a) k = if k = i then a.2 else prioAt l k := by
  unfold prioAt
  by_cases hk : k = i
  · subst hk
    rw [List.get?_set_eq_of_lt _ hi]
    simp
  · rw [List.get?_set_ne _ _ fun h => hk h.symm, if_neg hk]

theorem insert_perm {α : Type} (q : PQ α) (k : α) (p : ℚ) :
    (q.insert k p).heap.Perm ((k, p) :: q.heap) := by
  unfold PQ.insert
  exact (perm_heapifyUp _ _).trans (List.perm_append_singleton _ _)

theorem insert_isHeap {α : Type} {q : PQ α} (hH : IsHeap q.heap) (k : α)
    (p : ℚ) : IsHeap (q.insert k p).heap := by
  unfold PQ.insert
  apply heapifyUp_isHeap _ _ (by simp)
  constructor
  · intro j hj hj0 hjq
    simp only [List.length_append, List.length_cons, List.length_nil] at hj
    have hjl : j < q.heap.length := by omega
    rw [prioAt_append hjl, prioAt_append (lt_trans (parentIdx_lt hj0) hjl)]
    exact hH j hjl hj0
  · intro j hj hpj h0
    simp only [List.length_append, List.length_cons, List.length_nil] at hj
    have hj0 : 0 < j := by
      rcases Nat.eq_zero_or_pos j with rfl | h
      · have h00 : parentIdx 0 = 0 := rfl
        omega
      · exact h
    have := (parentIdx_eq_iff hj0).mp hpj
    omega

theorem extractMax_eq_none_iff {α : Type} (q : PQ α) :
    q.extractMax = none ↔ q.heap = [] := by
  unfold PQ.extractMax
  cases h : q.heap with
  | nil => simp
  | cons e t =>
    cases t with
    | nil => simp
    | cons f rest => simp

theorem extractMax_root {α : Type} {q : PQ α} {e : α × ℚ} {q' : PQ α}
    (h : q.extractMax = some (e, q')) : q.heap.get? 0 = some e := by
  unfold PQ.extractMax at h
  cases hh : q.heap with
  | nil => rw [hh] at h; simp at h
  | cons x t =>
    cases t with
    | nil =>
      rw [hh] at h
      simp only [Option.some.injEq, Prod.mk.injEq] at h
      rw [h.1]
      rfl
    | cons f rest =>
      rw [hh] at h
      simp only [Option.some.injEq, Prod.mk.injEq] at h
      rw [h.1]
      rfl

theorem extractMax_perm {α : Type} {q : PQ α} {e : α × ℚ} {q' : PQ α}
    (h : q.extractMax = some (e, q')) : (e :: q'.heap).Perm q.heap := by
  unfold PQ.extractMax at h
  cases hh : q.heap with
  | nil => rw [hh] at h; simp at h
  | cons x t =>
    cases t with
    | nil =>
      rw [hh] at h
      simp only [Option.some.injEq, Prod.mk.injEq] at h
      rw [← h.1, ← h.2]
    | cons f rest =>
      rw [hh] at h
      simp only [Option.some.injEq, Prod.mk.injEq] at h
      rw [← h.1, ← h.2]
      apply List.Perm.cons
      refine (perm_heapifyDown _ _).trans ?_
      have hne : f :: rest ≠ [] := List.cons_ne_nil f rest
      have h1 : ((f :: rest).getLast hne :: (f :: rest).dropLast).Perm
          ((f :: rest).dropLast ++ [(f :: rest).getLast hne]) :=
        (List.perm_append_singleton _ _).symm
      rw [List.dropLast_concat_getLast hne] at h1
      exact h1

theorem extractMax_max {α : Type} {q : PQ α} {e : α × ℚ} {q' : PQ α}
    (hH : IsHeap q.heap) (h : q.extractMax = some (e, q')) :
    ∀ x ∈ q.heap, x.2 ≤ e.2 := by
  intro x hx
  obtain ⟨i, hi⟩ := List.mem_iff_get?.mp hx
  have hroot := extractMax_root h
  calc x.2 = prioAt q.heap i := (prioAt_eq hi).symm
    _ ≤ prioAt q.heap 0 := isHeap_le_root hH i (get?_lt_length hi)
    _ = e.2 := prioAt_eq hroot

theorem extractMax_isHeap {α : Type} {q : PQ α} {e : α × ℚ} {q' : PQ α}
    (hH : IsHeap q.heap) (h : q.extractMax = some (e, q')) :
    IsHeap q'.heap := by
  unfold PQ.extractMax at h
  cases hh : q.heap with
  | nil => rw [hh] at h; simp at h
  | cons x t =>
    cases t with
    | nil =>
      rw [hh] at h
      simp only [Option.some.injEq, Prod.mk.injEq] at h
      rw [← h.2]
      intro j hj hj0
      simp at hj
    | cons f rest =>
      rw [hh] at h
      simp only [Option.some.injEq, Prod.mk.injEq] at h
      rw [← h.2]
      apply heapifyDown_isHeap
      have hne : f :: rest ≠ [] := List.cons_ne_nil f rest
      have hlen₀ : ((f :: rest).getLast hne :: (f :: rest).dropLast).length =
          (f :: rest).length := by
        simp only [List.length_cons, List.length_dropLast]
        omega
      have hget : ∀ kk, 0 < kk →
          kk < ((f :: rest).getLast hne :: (f :: rest).dropLast).length →
          prioAt ((f :: rest).getLast hne :: (f :: rest).dropLast) kk =
            prioAt (x :: f :: rest) kk := by
        intro kk hk0 hkl
        obtain ⟨kk', rfl⟩ : ∃ kk', kk = kk' + 1 := ⟨kk - 1, by omega⟩
        have hb : kk' < (f :: rest).length - 1 := by
          rw [hlen₀] at hkl
          simp only [List.length_cons] at hkl ⊢
          omega
        show prioAt ((f :: rest).dropLast) kk' = prioAt (f :: rest) kk'
        unfold prioAt
        rw [List.get?_eq_getElem?, List.get?_eq_getElem?, List.getElem?_dropLast,
          if_pos hb]
      constructor
      · intro j hj hj0 hpj
        have hpj0 : 0 < parentIdx j := by
          rcases Nat.eq_zero_or_pos (parentIdx j) with hz | hpos
          · exact absurd hz hpj
          · exact hpos
        have hjq : j < q.heap.length := by
          rw [hh]
          rw [hlen₀] at hj
          simp only [List.length_cons] at hj ⊢
          omega
        have hpjl : parentIdx j <
            ((f :: rest).getLast hne :: (f :: rest).dropLast).length := by
          have := parentIdx_lt hj0
          omega
        rw [hget j hj0 hj, hget (parentIdx j) hpj0 hpjl]
        have hIH := hH j hjq hj0
        rw [hh] at hIH
        exact hIH
      · intro j hj hpj h00
        exact absurd h00 (lt_irrefl 0)

theorem updatePriority_of_none {α : Type} [DecidableEq α] {q : PQ α} {k : α}
    (p : ℚ) (h : q.heap.findIdx? (fun e => e.1 = k) = none) :
    q.updatePriority k p = q := by
  unfold PQ.updatePriority
  rw [h]

theorem updatePriority_perm {α : Type} [DecidableEq α] {q : PQ α} {k : α}
    {i : ℕ} (p : ℚ) (h : q.heap.findIdx? (fun e => e.1 = k) = some i) :
    ∃ e, q.heap.get? i = some e ∧ e.1 = k ∧
      (q.updatePriority k p).heap.Perm (q.heap.set i (k, p)) := by
  obtain ⟨hi, hp, _⟩ := List.findIdx?_eq_some_iff_getElem.mp h
  refine ⟨q.heap[i], ?_, by simpa using hp, ?_⟩
  · rw [List.get?_eq_getElem?]
    exact List.getElem?_eq_getElem hi
  · unfold PQ.updatePriority
    rw [h]
    simp only []
    split_ifs
    · exact perm_heapifyUp _ _
    · exact perm_heapifyDown _ _

theorem updatePriority_isHeap {α : Type} [DecidableEq α] {q : PQ α}
    (hH : IsHeap q.heap) (k : α) (p : ℚ) :
    IsHeap (q.updatePriority k p).heap := by
  unfold PQ.updatePriority
  cases h : q.heap.findIdx? (fun e => e.1 = k) with
  | none => exact hH
  | some i =>
    obtain ⟨hi, hp, _⟩ := List.findIdx?_eq_some_iff_getElem.mp h
    simp only []
    have hset : ∀ kk, prioAt (q.heap.set i (k, p)) kk =
        if kk = i then p else prioAt q.heap kk := by
      intro kk
      rw [prioAt_set hi]
    have hlen : (q.heap.set i (k, p)).length = q.heap.length :=
      List.length_set _ _ _
    split_ifs with hold
    · -- the priority increased: sift up restores the heap
      apply heapifyUp_isHeap _ _ (by rw [hlen]; exact hi)
      constructor
      · intro j hj hj0 hji
        rw [hlen] at hj
        rw [hset j, if_neg hji]
        by_cases hpji : parentIdx j = i
        · rw [hpji, hset i, if_pos rfl]
          have h1 := hH j hj hj0
          rw [hpji] at h1
          exact le_of_lt (lt_of_le_of_lt h1 hold)
        · rw [hset (parentIdx j), if_neg hpji]
          exact hH j hj hj0
      · intro j hj hpj hi0
        rw [hlen] at hj
        have hj0 : 0 < j := by
          rcases Nat.eq_zero_or_pos j with rfl | hp'
          · have h00 : parentIdx 0 = 0 := rfl
            omega
          · exact hp'
        have hji : j ≠ i := by
          have := parentIdx_lt hj0
          omega
        rw [hset j, if_neg hji, hset (parentIdx i),
          if_neg (Nat.ne_of_lt (parentIdx_lt hi0))]
        calc prioAt q.heap j ≤ prioAt q.heap (parentIdx j) := hH j hj hj0
          _ = prioAt q.heap i := by rw [hpj]
          _ ≤ prioAt q.heap (parentIdx i) := hH i hi hi0
    · -- the priority did not increase: sift down restores the heap
      apply heapifyDown_isHeap
      constructor
      · intro j hj hj0 hpj
        rw [hlen] at hj
        by_cases hji : j = i
        · rw [hji, hset i, if_pos rfl]
          have h0i : 0 < i := hji ▸ hj0
          rw [hset (parentIdx i), if_neg (Nat.ne_of_lt (parentIdx_lt h0i))]
          push_neg at hold
          exact le_trans hold (hH i hi h0i)
        · rw [hset j, if_neg hji, hset (parentIdx j), if_neg hpj]
          exact hH j hj hj0
      · intro j hj hpj hi0
        rw [hlen] at hj
        have hj0 : 0 < j := by
          rcases Nat.eq_zero_or_pos j with rfl | hp'
          · have h00 : parentIdx 0 = 0 := rfl
            omega
          · exact hp'
        have hji : j ≠ i := by
          have := parentIdx_lt hj0
          omega
        rw [hset j, if_neg hji, hset (parentIdx i),
          if_neg (Nat.ne_of_lt (parentIdx_lt hi0))]
        calc prioAt q.heap j ≤ prioAt q.heap (parentIdx j) := hH j hj hj0
          _ = prioAt q.heap i := by rw [hpj]
          _ ≤ prioAt q.heap (parentIdx i) := hH i hi hi0

theorem updatePriority_length {α : Type} [DecidableEq α] (q : PQ α) (k : α)
    (p : ℚ) : (q.updatePriority k p).heap.length = q.heap.length := by
  unfold PQ.updatePriority
  cases h : q.heap.findIdx? (fun e => e.1 = k) with
  | none => rfl
  | some i =>
    simp only []
    split_ifs
    · exact (length_heapifyUp _ _).trans (List.length_set _ _ _)
    · exact (length_heapifyDown _ _).trans (List.length_set _ _ _)

theorem extractMax_length {α : Type} {q : PQ α} {e : α × ℚ} {q' : PQ α}
    (h : q.extractMax = some (e, q')) : q'.heap.length + 1 = q.heap.length := by
  have := (extractMax_perm h).length_eq
  simpa using this

theorem reachable_isHeap {α : Type} [DecidableEq α] {q : PQ α}
    (h : Reachable q) : IsHeap q.heap := by
  induction h with
  | empty => intro j hj hj0; simp [PQ.empty] at hj
  | insert k p _ ih => exact insert_isHeap ih k p
  | extract _ he ih => exact extractMax_isHeap ih he
  | update k p _ ih => exact updatePriority_isHeap ih k p

/-! ### The single-channel graph, from `src.ts` -/

theorem processNbrs_length (inspected : List String) (nodeScore : ℚ) :
    ∀ (nbrs : List (String × ℚ)) (sp : (String → ℚ) × PQ String),
      ((processNbrs inspected nodeScore nbrs sp).2).heap.length =
        sp.2.heap.length := by
  intro nbrs
  induction nbrs with
  | nil => intro sp; rfl
  | cons e rest ih =>
    intro sp
    unfold processNbrs
    by_cases h1 : e.1 ∉ inspected
    · rw [if_pos h1]
      simp only []
      by_cases h2 : sp.1 e.1 + (nodeScore - sp.1 e.1) * e.2 > sp.1 e.1
      · rw [if_pos h2, ih]
        simp [updatePriority_length]
      · rw [if_neg h2]
        exact ih sp
    · rw [if_neg h1]
      exact ih sp

/-! ### The dual-channel graph (positive and negative weights) -/

theorem processNbrsD_length (inspected : List String) (nodeScore : ℚ) :
    ∀ (nbrs : List (String × ℚ × ℚ)) (st : DState),
      (processNbrsD inspected nodeScore nbrs st).pq.heap.length =
        st.pq.heap.length := by
  intro nbrs
  induction nbrs with
  | nil => intro st; rfl
  | cons e rest ih =>
    intro st
    unfold processNbrsD
    by_cases h1 : e.1 ∉ inspected ∧ st.p e.1 - st.n e.1 < nodeScore
    · rw [if_pos h1, ih]
      simp [updatePriority_length]
    · rw [if_neg h1]
      exact ih st

theorem processNbrsPair_length (inspected : List String) (nodeScore : ℚ) :
    ∀ (nbrs : List (String × ℚ × ℚ)) (st : DState),
      (processNbrsPair inspected nodeScore nbrs st).pq.heap.length =
        st.pq.heap.length := by
  intro nbrs
  induction nbrs with
  | nil => intro st; rfl
  | cons e rest ih =>
    intro st
    unfold processNbrsPair
    by_cases h1 : e.1 ∉ inspected
    · rw [if_pos h1, ih]
      simp [updatePriority_length]
    · rw [if_neg h1]
      exact ih st

theorem processNbrsClaimed_length (inspected : List String) (nodeScore : ℚ) :
    ∀ (nbrs : List (String × ℚ × ℚ)) (st : DState),
      (processNbrsClaimed inspected nodeScore nbrs st).pq.heap.length =
        st.pq.heap.length := by
  intro nbrs
  induction nbrs with
  | nil => intro st; rfl
  | cons e rest ih =>
    intro st
    unfold processNbrsClaimed
    by_cases h1 : e.1 ∉ inspected
    · rw [if_pos h1, ih]
      simp [updatePriority_length]
    · rw [if_neg h1]
      exact ih st

/-! ### Arithmetic facts about the interpolation update -/

theorem interp_nonneg {old su w : ℚ} (h0o : 0 ≤ old) (h0s : 0 ≤ su)
    (h0w : 0 ≤ w) (h1w : w ≤ 1) : 0 ≤ old + (su - old) * w := by
  have key : old + (su - old) * w = old * (1 - w) + su * w := by ring
  have h1 : 0 ≤ old * (1 - w) := mul_nonneg h0o (by linarith)
  have h2 : 0 ≤ su * w := mul_nonneg h0s h0w
  linarith

theorem interp_le_one {old su w : ℚ} (h1o : old ≤ 1) (h1s : su ≤ 1)
    (h0w : 0 ≤ w) (h1w : w ≤ 1) : old + (su - old) * w ≤ 1 := by
  have key : 1 - (old + (su - old) * w) = (1 - old) * (1 - w) + (1 - su) * w := by
    ring
  have h1 : 0 ≤ (1 - old) * (1 - w) := mul_nonneg (by linarith) (by linarith)
  have h2 : 0 ≤ (1 - su) * w := mul_nonneg (by linarith) h0w
  linarith

theorem interp_le_su {old su w : ℚ} (hos : old ≤ su) (h1w : w ≤ 1) :
    old + (su - old) * w ≤ su := by
  have key : su - (old + (su - old) * w) = (su - old) * (1 - w) := by ring
  have h1 : 0 ≤ (su - old) * (1 - w) := mul_nonneg (by linarith) (by linarith)
  linarith

theorem interp_ge_prod {old su w : ℚ} (h0o : 0 ≤ old) (h1w : w ≤ 1) :
    su * w ≤ old + (su - old) * w := by
  have key : (old + (su - old) * w) - su * w = old * (1 - w) := by ring
  have h1 : 0 ≤ old * (1 - w) := mul_nonneg h0o (by linarith)
  linarith

theorem noupdate_ge_prod {old su w : ℚ} (h0o : 0 ≤ old) (h1w : w ≤ 1)
    (hno : (su - old) * w ≤ 0) : su * w ≤ old := by
  have key : su * w - old = (su - old) * w - old * (1 - w) := by ring
  have h1 : 0 ≤ old * (1 - w) := mul_nonneg h0o (by linarith)
  linarith

/-! ### List bookkeeping for the queue key set -/

theorem mem_keys_of_mem {α : Type} {l : List (α × ℚ)} {e : α × ℚ}
    (h : e ∈ l) : e.1 ∈ l.map Prod.fst :=
  List.mem_map.mpr ⟨e, h, rfl⟩

theorem entry_of_mem_keys {α : Type} {l : List (α × ℚ)} {v : α}
    (h : v ∈ l.map Prod.fst) : ∃ p, (v, p) ∈ l := by
  obtain ⟨⟨a, b⟩, he, hfst⟩ := List.mem_map.mp h
  dsimp at hfst
  subst hfst
  exact ⟨b, he⟩

theorem filter_notmem_cons {nodes inspected : List String} {a : String}
    (hnd : nodes.Nodup) :
    ((nodes.filter (fun x => x ∉ inspected)).erase a).Perm
      (nodes.filter (fun x => x ∉ a :: inspected)) := by
  by_cases ha : a ∈ nodes.filter (fun x => x ∉ inspected)
  · rw [(hnd.filter _).erase_eq_filter a, List.filter_filter]
    apply List.Perm.of_eq
    apply List.filter_congr
    intro x _
    by_cases hxa : x = a <;> by_cases hxi : x ∈ inspected <;>
      simp [hxa, hxi, List.mem_cons]
  · rw [List.erase_of_not_mem ha]
    apply List.Perm.of_eq
    apply List.filter_congr
    intro x hx
    by_cases hxa : x = a
    · subst hxa
      simp only [List.mem_filter] at ha
      push_neg at ha
      have := ha hx
      simp only [decide_eq_true_eq] at this ⊢
      simp [List.mem_cons, this]
    · by_cases hxi : x ∈ inspected <;> simp [hxa, hxi, List.mem_cons]

theorem keys_after_set {l : List (String × ℚ)} {i : ℕ} {k : String} {p : ℚ}
    {e0 : String × ℚ} (hi : l.get? i = some e0) (he0 : e0.1 = k) :
    (l.set i (k, p)).map Prod.fst = l.map Prod.fst := by
  rw [List.map_set]
  apply set_get?_self
  rw [List.get?_map, hi]
  simp [he0]

theorem sync_after_set {l : List (String × ℚ)} {i : ℕ} {k : String} {p : ℚ}
    {e0 : String × ℚ} {f : String → ℚ} (hnd : (l.map Prod.fst).Nodup)
    (hi : l.get? i = some e0) (he0 : e0.1 = k)
    (hsync : ∀ e ∈ l, e.2 = f e.1) :
    ∀ e' ∈ l.set i (k, p), e'.2 = updFn f k p e'.1 := by
  intro e' he'
  obtain ⟨j, hj⟩ := List.mem_iff_get?.mp he'
  by_cases hji : j = i
  · subst hji
    rw [List.get?_set_eq_of_lt _ (by
      have := get?_lt_length hi
      simpa using this)] at hj
    cases hj
    simp [updFn]
  · rw [List.get?_set_ne _ _ fun h => hji h.symm] at hj
    have hne : e'.1 ≠ k := by
      intro hk
      apply hji
      have h1 : (l.map Prod.fst).get? j = some k := by
        rw [List.get?_map, hj]
        simp [hk]
      have h2 : (l.map Prod.fst).get? i = some k := by
        rw [List.get?_map, hi]
        simp [he0]
      rcases Nat.lt_trichotomy j i with h | h | h
      · exact absurd (h1.trans h2.symm)
          (List.nodup_iff_get?_ne_get?.mp hnd j i h
            (by rw [List.length_map]
                have := get?_lt_length hi
                simpa using this))
      · exact h
      · exact absurd (h2.trans h1.symm)
          (List.nodup_iff_get?_ne_get?.mp hnd i j h
            (by rw [List.length_map]
                have := get?_lt_length hj
                simpa using this))
    rw [updFn, if_neg hne]
    exact hsync e' (List.mem_iff_get?.mpr ⟨j, hj⟩)

/-- The bundled specification of the neighbour-processing loop of
`computeTrustScore`: it preserves the queue bookkeeping (key set, priority
synchronization, heap property), keeps every score in `[0, 1]`, never
decreases a score, never touches an inspected node's score, keeps uninspected
scores at most the settling score, and establishes
`su * weight ≤ score(neighbor)` for every processed uninspected neighbour. -/
theorem processNbrs_spec (g : Graph1) (hnd : g.nodes.Nodup) :
    ∀ (nbrs : List (String × ℚ)) (inspected' : List String) (su : ℚ)
      (scores : String → ℚ) (pq : PQ String),
      (∀ e ∈ nbrs, e.1 ∈ g.nodes ∧ 0 ≤ e.2 ∧ e.2 ≤ 1) →
      0 ≤ su → su ≤ 1 →
      (pq.heap.map Prod.fst).Perm (g.nodes.filter (fun x => x ∉ inspected')) →
      (∀ e ∈ pq.heap, e.2 = scores e.1) →
      IsHeap pq.heap →
      (∀ x, 0 ≤ scores x ∧ scores x ≤ 1) →
      (∀ v ∈ g.nodes, v ∉ inspected' → scores v ≤ su) →
      ∀ sp, sp = processNbrs inspected' su nbrs (scores, pq) →
      (sp.2.heap.map Prod.fst).Perm
          (g.nodes.filter (fun x => x ∉ inspected')) ∧
      (∀ e ∈ sp.2.heap, e.2 = sp.1 e.1) ∧
      IsHeap sp.2.heap ∧
      (∀ x, 0 ≤ sp.1 x ∧ sp.1 x ≤ 1) ∧
      (∀ x, scores x ≤ sp.1 x) ∧
      (∀ x ∈ inspected', sp.1 x = scores x) ∧
      (∀ v ∈ g.nodes, v ∉ inspected' → sp.1 v ≤ su) ∧
      (∀ e ∈ nbrs, su * e.2 ≤ sp.1 e.1 ∨ e.1 ∈ inspected') := by
  intro nbrs
  induction nbrs with
  | nil =>
    intro inspected' su scores pq _ _ _ hkeys hsync hheap hbounds hbelow sp hsp
    rw [hsp]
    exact ⟨hkeys, hsync, hheap, hbounds, fun x => le_rfl, fun x _ => rfl,
      hbelow, fun e he => absurd he (List.not_mem_nil e)⟩
  | cons nw rest ih =>
    intro inspected' su scores pq hnb hsu0 hsu1 hkeys hsync hheap hbounds
      hbelow sp hsp
    obtain ⟨hnbn, hw0, hw1⟩ := hnb nw (List.mem_cons_self nw rest)
    have hrest : ∀ e ∈ rest, e.1 ∈ g.nodes ∧ 0 ≤ e.2 ∧ e.2 ≤ 1 :=
      fun e he => hnb e (List.mem_cons_of_mem nw he)
    rw [processNbrs] at hsp
    by_cases hin : nw.1 ∉ inspected'
    · rw [if_pos hin] at hsp
      simp only [] at hsp
      by_cases hupd : scores nw.1 + (su - scores nw.1) * nw.2 > scores nw.1
      · rw [if_pos hupd] at hsp
        -- the update branch
        set new := scores nw.1 + (su - scores nw.1) * nw.2 with hnew
        have hmemk : nw.1 ∈ pq.heap.map Prod.fst := by
          refine hkeys.mem_iff.mpr ?_
          rw [List.mem_filter]
          exact ⟨hnbn, by simpa using hin⟩
        obtain ⟨pv, hpv⟩ := entry_of_mem_keys hmemk
        have hfind : pq.heap.findIdx? (fun e => e.1 = nw.1) ≠ none := by
          intro hnone
          rw [List.findIdx?_eq_none_iff] at hnone
          have := hnone (nw.1, pv) hpv
          simp at this
        cases hfi : pq.heap.findIdx? (fun e => e.1 = nw.1) with
        | none => exact absurd hfi hfind
        | some i =>
          obtain ⟨e0, he0get, he0k, hperm⟩ := updatePriority_perm new hfi
          have hkeysnd : (pq.heap.map Prod.fst).Nodup :=
            hkeys.nodup_iff.mpr (hnd.filter _)
          have hkeys1 : ((pq.updatePriority nw.1 new).heap.map Prod.fst).Perm
              (g.nodes.filter (fun x => x ∉ inspected')) := by
            refine (hperm.map Prod.fst).trans ?_
            rw [keys_after_set he0get he0k]
            exact hkeys
          have hsync1 : ∀ e ∈ (pq.updatePriority nw.1 new).heap,
              e.2 = updFn scores nw.1 new e.1 := by
            intro e he
            exact sync_after_set hkeysnd he0get he0k hsync e
              ((hperm.mem_iff).mp he)
          have hheap1 : IsHeap (pq.updatePriority nw.1 new).heap :=
            updatePriority_isHeap hheap nw.1 new
          have hbounds1 : ∀ x, 0 ≤ updFn scores nw.1 new x ∧
              updFn scores nw.1 new x ≤ 1 := by
            intro x
            unfold updFn
            split_ifs with hx
            · exact ⟨interp_nonneg (hbounds nw.1).1 hsu0 hw0 hw1,
                interp_le_one (hbounds nw.1).2 hsu1 hw0 hw1⟩
            · exact hbounds x
          have hbelow1 : ∀ v ∈ g.nodes, v ∉ inspected' →
              updFn scores nw.1 new v ≤ su := by
            intro v hv hvi
            unfold updFn
            split_ifs with hx
            · exact interp_le_su (hbelow nw.1 hnbn hin) hw1
            · exact hbelow v hv hvi
          have := ih inspected' su (updFn scores nw.1 new)
            (pq.updatePriority nw.1 new) hrest hsu0 hsu1 hkeys1 hsync1 hheap1
            hbounds1 hbelow1 sp hsp
          obtain ⟨c1, c2, c3, c4, c5, c6, c7, c8⟩ := this
          refine ⟨c1, c2, c3, c4, ?_, ?_, c7, ?_⟩
          · intro x
            refine le_trans ?_ (c5 x)
            unfold updFn
            split_ifs with hx
            · rw [hx]
              exact le_of_lt hupd
            · exact le_rfl
          · intro x hx
            rw [c6 x hx]
            unfold updFn
            rw [if_neg]
            intro hxe
            exact hin (hxe ▸ hx)
          · intro e he
            rcases List.mem_cons.mp he with rfl | he'
            · left
              refine le_trans (interp_ge_prod (hbounds e.1).1 hw1) ?_
              refine le_trans ?_ (c5 e.1)
              unfold updFn
              rw [if_pos rfl]
            · exact c8 e he'
      · rw [if_neg hupd] at hsp
        have := ih inspected' su scores pq hrest hsu0 hsu1 hkeys hsync hheap
          hbounds hbelow sp hsp
        obtain ⟨c1, c2, c3, c4, c5, c6, c7, c8⟩ := this
        refine ⟨c1, c2, c3, c4, c5, c6, c7, ?_⟩
        intro e he
        rcases List.mem_cons.mp he with rfl | he'
        · left
          push_neg at hupd
          refine le_trans (noupdate_ge_prod (hbounds e.1).1 hw1 (by linarith)) ?_
          exact c5 e.1
        · exact c8 e he'
    · rw [if_neg hin] at hsp
      push_neg at hin
      have := ih inspected' su scores pq hrest hsu0 hsu1 hkeys hsync hheap
        hbounds hbelow sp hsp
      obtain ⟨c1, c2, c3, c4, c5, c6, c7, c8⟩ := this
      refine ⟨c1, c2, c3, c4, c5, c6, c7, ?_⟩
      intro e he
      rcases List.mem_cons.mp he with rfl | he'
      · exact Or.inr hin
      · exact c8 e he'

/-- The master specification of `computeTrustScore`'s greedy loop: scores
only grow, inspected scores are frozen, every score stays in `[0, 1]`, and —
since the extracted node always carries the maximum current priority — the
final score table satisfies `score(u) * weight(u,v) ≤ score(v)` for every
edge.  The hypotheses are the loop invariant established by the
initialization. -/
theorem trustLoop_spec (g : Graph1) (hnd : g.nodes.Nodup)
    (hedges : ∀ u, ∀ e ∈ g.outEdges u, e.1 ∈ g.nodes ∧ 0 ≤ e.2 ∧ e.2 ≤ 1) :
    ∀ (fuel : ℕ) (scores : String → ℚ) (inspected : List String)
      (pq : PQ String),
      pq.heap.length ≤ fuel →
      (pq.heap.map Prod.fst).Perm (g.nodes.filter (fun x => x ∉ inspected)) →
      (∀ e ∈ pq.heap, e.2 = scores e.1) →
      IsHeap pq.heap →
      (∀ x, 0 ≤ scores x ∧ scores x ≤ 1) →
      (∀ u ∈ inspected, u ∈ g.nodes) →
      (∀ v ∈ g.nodes, v ∉ inspected → ∀ u ∈ inspected, scores v ≤ scores u) →
      (∀ u ∈ inspected, ∀ e ∈ g.outEdges u, scores u * e.2 ≤ scores e.1) →
      (∀ x, scores x ≤ trustLoop g fuel scores inspected pq x) ∧
      (∀ u ∈ inspected, trustLoop g fuel scores inspected pq u = scores u) ∧
      (∀ x, 0 ≤ trustLoop g fuel scores inspected pq x ∧
        trustLoop g fuel scores inspected pq x ≤ 1) ∧
      (∀ u ∈ g.nodes, ∀ e ∈ g.outEdges u,
        trustLoop g fuel scores inspected pq u * e.2 ≤
          trustLoop g fuel scores inspected pq e.1) := by
  intro fuel
  induction fuel with
  | zero =>
    intro scores inspected pq hlen hkeys hsync hheap hbounds hinsp hlow hedge
    have hempty : pq.heap = [] := List.length_eq_zero.mp (Nat.le_zero.mp hlen)
    have hfilter : g.nodes.filter (fun x => x ∉ inspected) = [] := by
      have := hkeys.symm
      rw [hempty] at this
      simpa using this.eq_nil
    have hall : ∀ u ∈ g.nodes, u ∈ inspected := by
      intro u hu
      by_contra hui
      have : u ∈ g.nodes.filter (fun x => x ∉ inspected) :=
        List.mem_filter.mpr ⟨hu, by simpa using hui⟩
      rw [hfilter] at this
      exact absurd this (List.not_mem_nil u)
    exact ⟨fun x => le_rfl, fun u _ => rfl, hbounds,
      fun u hu e he => hedge u (hall u hu) e he⟩
  | succ fuel IH =>
    intro scores inspected pq hlen hkeys hsync hheap hbounds hinsp hlow hedge
    cases hext : pq.extractMax with
    | none =>
      have hempty : pq.heap = [] := (extractMax_eq_none_iff pq).mp hext
      have hfilter : g.nodes.filter (fun x => x ∉ inspected) = [] := by
        have := hkeys.symm
        rw [hempty] at this
        simpa using this.eq_nil
      have hall : ∀ u ∈ g.nodes, u ∈ inspected := by
        intro u hu
        by_contra hui
        have : u ∈ g.nodes.filter (fun x => x ∉ inspected) :=
          List.mem_filter.mpr ⟨hu, by simpa using hui⟩
        rw [hfilter] at this
        exact absurd this (List.not_mem_nil u)
      have hred : trustLoop g (fuel + 1) scores inspected pq = scores := by
        simp only [trustLoop]
        rw [hext]
      rw [hred]
      exact ⟨fun x => le_rfl, fun u _ => rfl, hbounds,
        fun u hu e he => hedge u (hall u hu) e he⟩
    | some epq =>
      obtain ⟨e, pq'⟩ := epq
      have he_mem : e ∈ pq.heap :=
        List.mem_iff_get?.mpr ⟨0, extractMax_root hext⟩
      have hkey : e.1 ∈ g.nodes.filter (fun x => x ∉ inspected) :=
        hkeys.mem_iff.mp (mem_keys_of_mem he_mem)
      rw [List.mem_filter] at hkey
      obtain ⟨hen, hei'⟩ := hkey
      have hei : e.1 ∉ inspected := by simpa using hei'
      have hsu_e : e.2 = scores e.1 := hsync e he_mem
      have hmax : ∀ x ∈ pq.heap, x.2 ≤ e.2 := extractMax_max hheap hext
      have hbelow' : ∀ v ∈ g.nodes, v ∉ (e.1 :: inspected) →
          scores v ≤ scores e.1 := by
        intro v hv hvi
        rw [List.mem_cons] at hvi
        push_neg at hvi
        have hvf : v ∈ pq.heap.map Prod.fst := by
          refine hkeys.mem_iff.mpr ?_
          rw [List.mem_filter]
          exact ⟨hv, by simpa using hvi.2⟩
        obtain ⟨p, hp⟩ := entry_of_mem_keys hvf
        have := hmax (v, p) hp
        rw [hsync (v, p) hp] at this
        rw [← hsu_e]
        exact this
      have hperm' : (e :: pq'.heap).Perm pq.heap := extractMax_perm hext
      have hkeys' : (pq'.heap.map Prod.fst).Perm
          (g.nodes.filter (fun x => x ∉ (e.1 :: inspected))) := by
        have h1 : (e.1 :: pq'.heap.map Prod.fst).Perm
            (g.nodes.filter (fun x => x ∉ inspected)) := by
          have := hperm'.map Prod.fst
          exact this.trans hkeys
        have h2 := (List.cons_perm_iff_perm_erase.mp h1).2
        exact h2.trans (filter_notmem_cons hnd)
      have hsync' : ∀ x ∈ pq'.heap, x.2 = scores x.1 := by
        intro x hx
        exact hsync x (hperm'.mem_iff.mp (List.mem_cons_of_mem e hx))
      have hheap' : IsHeap pq'.heap := extractMax_isHeap hheap hext
      have hsp := processNbrs_spec g hnd (g.outEdges e.1) (e.1 :: inspected)
        (scores e.1) scores pq' (hedges e.1) (hbounds e.1).1 (hbounds e.1).2
        hkeys' hsync' hheap' hbounds hbelow'
        (processNbrs (e.1 :: inspected) (scores e.1) (g.outEdges e.1)
          (scores, pq')) rfl
      obtain ⟨c1, c2, c3, c4, c5, c6, c7, c8⟩ := hsp
      set sp := processNbrs (e.1 :: inspected) (scores e.1) (g.outEdges e.1)
        (scores, pq') with hspdef
      have hlen' : sp.2.heap.length ≤ fuel := by
        have h1 : sp.2.heap.length = pq'.heap.length := by
          rw [hspdef]
          exact processNbrs_length _ _ _ _
        have h2 := extractMax_length hext
        omega
      have hinsp' : ∀ u ∈ e.1 :: inspected, u ∈ g.nodes := by
        intro u hu
        rcases List.mem_cons.mp hu with rfl | hu'
        · exact hen
        · exact hinsp u hu'
      have hlow' : ∀ v ∈ g.nodes, v ∉ (e.1 :: inspected) →
          ∀ u ∈ e.1 :: inspected, sp.1 v ≤ sp.1 u := by
        intro v hv hvi u hu
        rcases List.mem_cons.mp hu with rfl | hu'
        · rw [c6 e.1 (List.mem_cons_self e.1 inspected)]
          exact c7 v hv hvi
        · rw [c6 u (List.mem_cons_of_mem e.1 hu')]
          refine le_trans (c7 v hv hvi) ?_
          exact hlow e.1 hen hei u hu'
      have hedge' : ∀ u ∈ e.1 :: inspected, ∀ ed ∈ g.outEdges u,
          sp.1 u * ed.2 ≤ sp.1 ed.1 := by
        intro u hu ed hed
        rcases List.mem_cons.mp hu with rfl | hu'
        · rw [c6 e.1 (List.mem_cons_self e.1 inspected)]
          rcases c8 ed hed with h | h
          · exact h
          · rcases List.mem_cons.mp h with heq | hin2
            · rw [heq, c6 e.1 (List.mem_cons_self e.1 inspected)]
              exact mul_le_of_le_one_right (hbounds e.1).1
                (hedges e.1 ed hed).2.2
            · rw [c6 ed.1 (List.mem_cons_of_mem e.1 hin2)]
              refine le_trans (mul_le_of_le_one_right (hbounds e.1).1
                (hedges e.1 ed hed).2.2) ?_
              exact hlow e.1 hen hei ed.1 hin2
        · rw [c6 u (List.mem_cons_of_mem e.1 hu')]
          refine le_trans ?_ (c5 ed.1)
          exact hedge u hu' ed hed
      have hIH := IH sp.1 (e.1 :: inspected) sp.2 hlen' c1 c2 c3 c4 hinsp'
        hlow' hedge'
      obtain ⟨a1, a2, a3, a4⟩ := hIH
      have hred : trustLoop g (fuel + 1) scores inspected pq =
          trustLoop g fuel sp.1 (e.1 :: inspected) sp.2 := by
        simp only [trustLoop]
        rw [hext]
        simp only []
        rw [if_neg hei]
      rw [hred]
      refine ⟨?_, ?_, a3, a4⟩
      · intro x
        exact le_trans (c5 x) (a1 x)
      · intro u hu
        rw [a2 u (List.mem_cons_of_mem e.1 hu)]
        exact c6 u (List.mem_cons_of_mem e.1 hu)

theorem mem_of_lookup_eq_some {β : Type} {l : List (String × β)} {k : String}
    {b : β} (h : l.lookup k = some b) : (k, b) ∈ l := by
  obtain ⟨l₁, l₂, rfl, _⟩ := List.lookup_eq_some_iff.mp h
  exact List.mem_append.mpr (Or.inr (List.mem_cons_self _ _))

theorem WF1_outEdges {g : Graph1} (h : WF1 g) :
    ∀ u, ∀ e ∈ g.outEdges u, e.1 ∈ g.nodes ∧ 0 ≤ e.2 ∧ e.2 ≤ 1 := by
  intro u e he
  unfold Graph1.outEdges at he
  cases hl : g.edges.lookup u with
  | none =>
    rw [hl] at he
    simp at he
  | some lst =>
    rw [hl] at he
    simp only [Option.getD_some] at he
    exact ((h.2 (u, lst) (mem_of_lookup_eq_some hl)).2 e he)

/-- The initialization fold: the produced score map gives the source `1` and
every other listed node `0`, the produced queue holds exactly the listed
keys with priorities synchronized to the score map, and is a heap. -/
theorem initFold_spec (source : String) :
    ∀ (l : List String) (acc : (String → ℚ) × PQ String),
      ∀ res, res = l.foldl
        (fun sp node =>
          let score : ℚ := if node = source then 1 else 0
          (updFn sp.1 node score, sp.2.insert node score)) acc →
      (∀ x, res.1 x = if x ∈ l then (if x = source then (1 : ℚ) else 0)
        else acc.1 x) ∧
      ((res.2.heap.map Prod.fst).Perm (l ++ acc.2.heap.map Prod.fst)) ∧
      (IsHeap acc.2.heap → IsHeap res.2.heap) ∧
      ((∀ e ∈ acc.2.heap, e.2 = res.1 e.1) → ∀ e ∈ res.2.heap, e.2 = res.1 e.1) := by
  intro l
  induction l with
  | nil =>
    intro acc res hres
    rw [hres]
    exact ⟨fun x => by simp, by simp, fun h => h, fun h => h⟩
  | cons node rest ih =>
    intro acc res hres
    rw [List.foldl_cons] at hres
    set s : ℚ := if node = source then 1 else 0 with hs
    set acc' := (updFn acc.1 node s, acc.2.insert node s) with hacc'
    have := ih acc' res hres
    obtain ⟨i1, i2, i3, i4⟩ := this
    have hval : ∀ x, res.1 x = if x ∈ node :: rest then
        (if x = source then (1 : ℚ) else 0) else acc.1 x := by
      intro x
      rw [i1 x]
      by_cases hxr : x ∈ rest
      · rw [if_pos hxr, if_pos (List.mem_cons_of_mem node hxr)]
      · rw [if_neg hxr]
        by_cases hxn : x = node
        · subst hxn
          rw [if_pos (List.mem_cons_self x rest)]
          show updFn acc.1 x s x = _
          rw [updFn, if_pos rfl]
        · rw [if_neg (by
            rw [List.mem_cons]
            push_neg
            exact ⟨hxn, hxr⟩)]
          show updFn acc.1 node s x = acc.1 x
          rw [updFn, if_neg hxn]
    refine ⟨hval, ?_, ?_, ?_⟩
    · refine i2.trans ?_
      have hk : (acc'.2.heap.map Prod.fst).Perm
          (node :: acc.2.heap.map Prod.fst) := by
        rw [hacc']
        exact (insert_perm acc.2 node s).map Prod.fst
      refine (List.Perm.append_left rest hk).trans ?_
      exact List.perm_middle
    · intro hH
      exact i3 (by rw [hacc']; exact insert_isHeap hH node s)
    · intro hsync
      apply i4
      intro e he
      have he' : e ∈ (node, s) :: acc.2.heap :=
        ((insert_perm acc.2 node s).mem_iff).mp he
      rcases List.mem_cons.mp he' with rfl | he''
      · show s = res.1 node
        rw [hval node, if_pos (List.mem_cons_self node rest), hs]
      · exact hsync e he''

theorem filter_empty_insp (nodes : List String) :
    nodes.filter (fun x => x ∉ ([] : List String)) = nodes := by
  induction nodes with
  | nil => rfl
  | cons a l ih => simp [List.filter_cons, ih]

/-- The weight of an existing edge lies in `[0, 1]` (well-formed graphs). -/
theorem edgeWeight1_bounds {g : Graph1} (hWF : WF1 g) {u v : String} {w : ℚ}
    (h : edgeWeight1 g u v = some w) : (v, w) ∈ g.outEdges u ∧ 0 ≤ w ∧ w ≤ 1 := by
  have hm : (v, w) ∈ g.outEdges u := mem_of_lookup_eq_some h
  exact ⟨hm, (WF1_outEdges hWF u (v, w) hm).2⟩

theorem pathProd_nonneg {g : Graph1} (hWF : WF1 g) :
    ∀ p, 0 ≤ pathProd g p := by
  intro p
  induction p with
  | nil => exact zero_le_one
  | cons u rest ih =>
    cases rest with
    | nil => exact zero_le_one
    | cons v r =>
      rw [pathProd]
      refine mul_nonneg ?_ ih
      cases hw : edgeWeight1 g u v with
      | none => simp
      | some w =>
        simp only [Option.getD_some]
        exact (edgeWeight1_bounds hWF hw).2.1

/-- Chaining the edge inequality `f u * w(u,v) ≤ f v` along a walk. -/
theorem walk_bound {g : Graph1} (hWF : WF1 g) (f : String → ℚ)
    (hedge : ∀ u v w, edgeWeight1 g u v = some w → f u * w ≤ f v) :
    ∀ (p : List String) (x tl : String), Chain1 g p → p.head? = some x →
      p.getLast? = some tl → f x * pathProd g p ≤ f tl := by
  intro p
  induction p with
  | nil => intro x tl _ hh; simp at hh
  | cons u rest ih =>
    intro x tl hch hh hl
    simp only [List.head?_cons, Option.some.injEq] at hh
    subst hh
    cases rest with
    | nil =>
      simp only [List.getLast?_singleton, Option.some.injEq] at hl
      subst hl
      rw [pathProd, mul_one]
    | cons v r =>
      obtain ⟨hw, hch'⟩ := hch
      obtain ⟨w, hww⟩ := Option.isSome_iff_exists.mp hw
      have hll : (v :: r).getLast? = some tl := by
        rw [List.getLast?_cons_cons] at hl
        exact hl
      have hstep := hedge u v w hww
      have ihv := ih v tl hch' rfl hll
      rw [pathProd, hww]
      simp only [Option.getD_some]
      calc f u * (w * pathProd g (v :: r)) = (f u * w) * pathProd g (v :: r) := by
            ring
        _ ≤ f v * pathProd g (v :: r) :=
            mul_le_mul_of_nonneg_right hstep (pathProd_nonneg hWF _)
        _ ≤ f tl := ihv

/-- `initState` establishes the loop invariant: the score map is the
indicator of the source on the node list, the queue holds exactly the node
list as keys, priorities are synchronized, and the heap property holds. -/
theorem initState_spec (nodes : List String) (source : String) :
    ∀ sp, sp = initState nodes source →
      (∀ x, sp.1 x = if x ∈ nodes then (if x = source then (1 : ℚ) else 0)
        else 0) ∧
      ((sp.2.heap.map Prod.fst).Perm nodes) ∧
      IsHeap sp.2.heap ∧
      (∀ e ∈ sp.2.heap, e.2 = sp.1 e.1) := by
  intro sp hsp
  have h := initFold_spec source nodes ((fun _ => 0 : String → ℚ), PQ.empty)
    sp hsp
  obtain ⟨i1, i2, i3, i4⟩ := h
  refine ⟨i1, ?_, ?_, ?_⟩
  · refine i2.trans ?_
    show List.Perm (nodes ++ ([] : List (String × ℚ)).map Prod.fst) nodes
    simp
  · exact i3 (fun j hj _ => absurd hj (by simp [PQ.empty]))
  · exact i4 (fun e he => absurd he (List.not_mem_nil e))

/-- The full conclusion bundle of the greedy propagation as run by
`computeTrustScore` from a well-formed graph: the final score map is
bounded in `[0, 1]`, assigns the source `1`, and satisfies the edge
inequality `final u * w(u, v) ≤ final v` on every edge. -/
theorem computeTrustScore_final_spec {g : Graph1} (hWF : WF1 g)
    {source : String} (hsrc : source ∈ g.nodes) :
    ∀ final, final = trustLoop g (initState g.nodes source).2.heap.length
        (initState g.nodes source).1 [] (initState g.nodes source).2 →
      (∀ x, 0 ≤ final x ∧ final x ≤ 1) ∧
      final source = 1 ∧
      (∀ u v w, edgeWeight1 g u v = some w → final u * w ≤ final v) := by
  intro final hfinal
  obtain ⟨i1, i2, i3, i4⟩ := initState_spec g.nodes source _ rfl
  have hbounds : ∀ x, 0 ≤ (initState g.nodes source).1 x ∧
      (initState g.nodes source).1 x ≤ 1 := by
    intro x
    rw [i1 x]
    split_ifs <;> norm_num
  have hsrc1 : (initState g.nodes source).1 source = 1 := by
    rw [i1 source, if_pos hsrc, if_pos rfl]
  have hkeys : ((initState g.nodes source).2.heap.map Prod.fst).Perm
      (g.nodes.filter (fun x => x ∉ ([] : List String))) := by
    rw [filter_empty_insp]
    exact i2
  have hspec := trustLoop_spec g hWF.1 (WF1_outEdges hWF)
    (initState g.nodes source).2.heap.length (initState g.nodes source).1
    ([] : List String) (initState g.nodes source).2 le_rfl hkeys i4 i3
    hbounds (fun u hu => absurd hu (List.not_mem_nil u))
    (fun v _ _ u hu => absurd hu (List.not_mem_nil u))
    (fun u hu => absurd hu (List.not_mem_nil u))
  obtain ⟨mono, _, bnds, edg⟩ := hspec
  rw [← hfinal] at mono bnds edg
  refine ⟨bnds, ?_, ?_⟩
  · have h1 := mono source
    rw [hsrc1] at h1
    exact le_antisymm (bnds source).2 h1
  · intro u v w hw
    have hm : (v, w) ∈ g.outEdges u := mem_of_lookup_eq_some hw
    have hu : u ∈ g.nodes := by
      unfold Graph1.outEdges at hm
      cases hl : g.edges.lookup u with
      | none => rw [hl] at hm; simp at hm
      | some lst =>
        rw [hl] at hm
        exact (hWF.2 (u, lst) (mem_of_lookup_eq_some hl)).1
    exact edg u hu (v, w) hm

/-- Every successful `computeTrustScore` result dominates the edge-weight
product of every directed walk from the source to the target. -/
theorem computeTrustScore_ge_pathProd {g : Graph1} (hWF : WF1 g)
    {s t : String} {r : ℚ} (hok : g.computeTrustScore s t = .ok r) :
    ∀ p, IsWalk g s t p → pathProd g p ≤ r := by
  intro p hwalk
  unfold Graph1.computeTrustScore at hok
  by_cases hmem : s ∉ g.nodes ∨ t ∉ g.nodes
  · rw [if_pos hmem] at hok
    exact absurd hok (by simp)
  · rw [if_neg hmem] at hok
    push_neg at hmem
    simp only [Except.ok.injEq] at hok
    obtain ⟨bnds, hs1, hedge⟩ :=
      computeTrustScore_final_spec hWF hmem.1 _ rfl
    obtain ⟨hh, hl, hch⟩ := hwalk
    have hb := walk_bound hWF _ hedge p s t hch hh hl
    rw [hs1, one_mul] at hb
    calc pathProd g p ≤ _ := hb
      _ ≤ r := hok ▸ le_max_left _ _

/-! ### Concrete evaluation of the reference single-channel scenario -/

set_option maxHeartbeats 1600000 in
theorem g2_init : initState g2.nodes "A" =
    (g2s0, ⟨[("A", 1), ("B", 0), ("C", 0), ("D", 0)]⟩) := by
  simp [initState, g2, g2s0, PQ.empty, PQ.insert, heapifyUp, heapifyUpFuel,
    prioAt, parentIdx, swapAt]
  norm_num [heapifyUpFuel, prioAt, parentIdx, swapAt]

set_option maxHeartbeats 1600000 in
theorem g2_x1 : (PQ.mk (α := String) [("A", 1), ("B", 0), ("C", 0), ("D", 0)]).extractMax =
    some (("A", 1), ⟨[("D", 0), ("B", 0), ("C", 0)]⟩) := by
  simp [PQ.extractMax, heapifyDown, heapifyDownFuel, maxChildIdx, prioAt,
    parentIdx, swapAt]

set_option maxHeartbeats 1600000 in
theorem g2_p1 : processNbrs ["A"] (g2s0 "A") (g2.outEdges "A")
    (g2s0, ⟨[("D", 0), ("B", 0), ("C", 0)]⟩) =
    (g2s1, ⟨[("B", 3/5), ("D", 0), ("C", 1/2)]⟩) := by
  simp [processNbrs, g2, g2s0, g2s1, Graph1.outEdges, updFn,
    PQ.updatePriority, heapifyUp, heapifyUpFuel, heapifyDown, heapifyDownFuel,
    maxChildIdx, prioAt, parentIdx, swapAt, List.findIdx?]
  norm_num [heapifyUpFuel, heapifyDownFuel, maxChildIdx, prioAt, parentIdx,
    swapAt, updFn]
  simp [processNbrs, g2, g2s0, g2s1, Graph1.outEdges, updFn,
    PQ.updatePriority, heapifyUp, heapifyUpFuel, heapifyDown, heapifyDownFuel,
    maxChildIdx, prioAt, parentIdx, swapAt, List.findIdx?]
  norm_num [heapifyUpFuel, heapifyDownFuel, maxChildIdx, prioAt, parentIdx,
    swapAt, updFn]

set_option maxHeartbeats 1600000 in
theorem g2_x2 : (PQ.mk (α := String) [("B", 3/5), ("D", 0), ("C", 1/2)]).extractMax =
    some (("B", 3/5), ⟨[("C", 1/2), ("D", 0)]⟩) := by
  simp [PQ.extractMax, heapifyDown, heapifyDownFuel, maxChildIdx, prioAt,
    parentIdx, swapAt]
  try norm_num [heapifyDownFuel, maxChildIdx, prioAt, parentIdx, swapAt]

set_option maxHeartbeats 1600000 in
theorem g2_p2 : processNbrs ["B", "A"] (g2s1 "B") (g2.outEdges "B")
    (g2s1, ⟨[("C", 1/2), ("D", 0)]⟩) =
    (g2s2, ⟨[("C", 27/50), ("D", 0)]⟩) := by
  simp [processNbrs, g2, g2s0, g2s1, g2s2, Graph1.outEdges, updFn,
    PQ.updatePriority, heapifyUp, heapifyUpFuel, heapifyDown, heapifyDownFuel,
    maxChildIdx, prioAt, parentIdx, swapAt, List.findIdx?]
  norm_num [heapifyUpFuel, heapifyDownFuel, maxChildIdx, prioAt, parentIdx,
    swapAt, updFn]
  try simp [processNbrs, g2, g2s0, g2s1, g2s2, Graph1.outEdges, updFn,
    PQ.updatePriority, heapifyUp, heapifyUpFuel, heapifyDown, heapifyDownFuel,
    maxChildIdx, prioAt, parentIdx, swapAt, List.findIdx?]
  try norm_num [heapifyUpFuel, heapifyDownFuel, maxChildIdx, prioAt, parentIdx,
    swapAt, updFn]

set_option maxHeartbeats 1600000 in
theorem g2_x3 : (PQ.mk (α := String) [("C", 27/50), ("D", 0)]).extractMax =
    some (("C", 27/50), ⟨[("D", 0)]⟩) := by
  simp [PQ.extractMax, heapifyDown, heapifyDownFuel, maxChildIdx, prioAt,
    parentIdx, swapAt]
  try norm_num [heapifyDownFuel, maxChildIdx, prioAt, parentIdx, swapAt]

set_option maxHeartbeats 1600000 in
theorem g2_p3 : processNbrs ["C", "B", "A"] (g2s2 "C") (g2.outEdges "C")
    (g2s2, ⟨[("D", 0)]⟩) = (g2s3, ⟨[("D", 27/100)]⟩) := by
  simp [processNbrs, g2, g2s0, g2s1, g2s2, g2s3, Graph1.outEdges, updFn,
    PQ.updatePriority, heapifyUp, heapifyUpFuel, heapifyDown, heapifyDownFuel,
    maxChildIdx, prioAt, parentIdx, swapAt, List.findIdx?]
  norm_num [heapifyUpFuel, heapifyDownFuel, maxChildIdx, prioAt, parentIdx,
    swapAt, updFn]
  try simp [processNbrs, g2, g2s0, g2s1, g2s2, g2s3, Graph1.outEdges, updFn,
    PQ.updatePriority, heapifyUp, heapifyUpFuel, heapifyDown, heapifyDownFuel,
    maxChildIdx, prioAt, parentIdx, swapAt, List.findIdx?]
  try norm_num [heapifyUpFuel, heapifyDownFuel, maxChildIdx, prioAt, parentIdx,
    swapAt, updFn]

theorem g2_x4 : (PQ.mk (α := String) [("D", 27/100)]).extractMax =
    some (("D", 27/100), ⟨[]⟩) := by
  simp [PQ.extractMax]

theorem g2_p4 : processNbrs ["D", "C", "B", "A"] (g2s3 "D") (g2.outEdges "D")
    (g2s3, ⟨[]⟩) = (g2s3, ⟨[]⟩) := by
  simp [processNbrs, g2, Graph1.outEdges]

/-- One non-skipping iteration of the main loop, driven by computed
`extractMax` and neighbour-processing facts. -/
theorem trustLoop_step (g : Graph1) (fuel : ℕ) (scores : String → ℚ)
    (inspected : List String) (pq : PQ String) (e : String × ℚ)
    (pq' : PQ String) (hx : pq.extractMax = some (e, pq'))
    (he : e.1 ∉ inspected) (sp : (String → ℚ) × PQ String)
    (hp : processNbrs (e.1 :: inspected) (scores e.1) (g.outEdges e.1)
      (scores, pq') = sp) :
    trustLoop g (fuel + 1) scores inspected pq =
      trustLoop g fuel sp.1 (e.1 :: inspected) sp.2 := by
  simp only [trustLoop, hx]
  rw [if_neg he]
  simp only [hp]

set_option maxHeartbeats 800000 in
theorem g2_final : trustLoop g2 4 g2s0 []
    ⟨[("A", 1), ("B", 0), ("C", 0), ("D", 0)]⟩ = g2s3 := by
  show trustLoop g2 (3 + 1) g2s0 [] _ = g2s3
  rw [trustLoop_step g2 3 g2s0 [] _ ("A", 1) _ g2_x1
    (List.not_mem_nil "A") _ g2_p1]
  show trustLoop g2 (2 + 1) g2s1 ["A"] _ = g2s3
  rw [trustLoop_step g2 2 g2s1 ["A"] _ ("B", 3/5) _ g2_x2
    (by decide) _ g2_p2]
  show trustLoop g2 (1 + 1) g2s2 ["B", "A"] _ = g2s3
  rw [trustLoop_step g2 1 g2s2 ["B", "A"] _ ("C", 27/50) _ g2_x3
    (by decide) _ g2_p3]
  show trustLoop g2 (0 + 1) g2s3 ["C", "B", "A"] _ = g2s3
  rw [trustLoop_step g2 0 g2s3 ["C", "B", "A"] _ ("D", 27/100) _ g2_x4
    (by decide) _ g2_p4]
  rfl

set_option maxHeartbeats 800000 in
theorem g2_eval (t : String) (ht : t ∈ g2.nodes) :
    g2.computeTrustScore "A" t = .ok (max (g2s3 t) 0) := by
  unfold Graph1.computeTrustScore
  rw [if_neg (by push_neg; exact ⟨by decide, ht⟩)]
  simp only [g2_init]
  show Except.ok (max (trustLoop g2 ((PQ.mk (α := String)
    [("A", 1), ("B", 0), ("C", 0), ("D", 0)]).heap.length) g2s0 []
    ⟨[("A", 1), ("B", 0), ("C", 0), ("D", 0)]⟩ t) 0) = _
  have hlen : (PQ.mk (α := String)
      [("A", 1), ("B", 0), ("C", 0), ("D", 0)]).heap.length = 4 := rfl
  rw [hlen, g2_final]

theorem g2_score_B : g2.computeTrustScore "A" "B" = .ok (3/5) := by
  rw [g2_eval "B" (by decide)]
  simp [g2s3, g2s2, g2s1, g2s0, updFn]
  try norm_num

theorem g2_score_C : g2.computeTrustScore "A" "C" = .ok (27/50) := by
  rw [g2_eval "C" (by decide)]
  simp [g2s3, g2s2, g2s1, g2s0, updFn]
  try norm_num

theorem g2_score_D : g2.computeTrustScore "A" "D" = .ok (27/100) := by
  rw [g2_eval "D" (by decide)]
  simp [g2s3, g2s2, g2s1, g2s0, updFn]
  try norm_num

theorem g2_succ_A {b : String} (h : (edgeWeight1 g2 "A" b).isSome) :
    b = "B" ∨ b = "C" := by
  by_cases hb : b = "B"
  · exact Or.inl hb
  by_cases hc : b = "C"
  · exact Or.inr hc
  exfalso
  have hb' : (b == "B") = false := beq_eq_false_iff_ne.mpr hb
  have hc' : (b == "C") = false := beq_eq_false_iff_ne.mpr hc
  simp [edgeWeight1, Graph1.outEdges, g2, List.lookup, hb', hc'] at h

theorem g2_succ_B {b : String} (h : (edgeWeight1 g2 "B" b).isSome) :
    b = "C" := by
  by_cases hc : b = "C"
  · exact hc
  exfalso
  have hc' : (b == "C") = false := beq_eq_false_iff_ne.mpr hc
  simp [edgeWeight1, Graph1.outEdges, g2, List.lookup, hc'] at h

theorem g2_succ_C {b : String} (h : (edgeWeight1 g2 "C" b).isSome) :
    b = "D" := by
  by_cases hd : b = "D"
  · exact hd
  exfalso
  have hd' : (b == "D") = false := beq_eq_false_iff_ne.mpr hd
  simp [edgeWeight1, Graph1.outEdges, g2, List.lookup, hd'] at h

theorem g2_succ_D {b : String} (h : (edgeWeight1 g2 "D" b).isSome) :
    False := by
  simp [edgeWeight1, Graph1.outEdges, g2, List.lookup] at h

/-- The only directed walks from `A` to `C` in the reference graph are
`A→C` and `A→B→C`. -/
theorem g2_walks : ∀ p, IsWalk g2 "A" "C" p →
    p = ["A", "C"] ∨ p = ["A", "B", "C"] := by
  intro p hw
  obtain ⟨hh, hl, hch⟩ := hw
  match p with
  | [] => simp at hh
  | [a] =>
    simp only [List.head?_cons, Option.some.injEq] at hh
    subst hh
    exact absurd hl (by decide)
  | a :: b :: rest =>
    simp only [List.head?_cons, Option.some.injEq] at hh
    subst hh
    obtain ⟨hw1, hch1⟩ := hch
    rcases g2_succ_A hw1 with hb | hb
    · subst hb
      match rest with
      | [] => exact absurd hl (by decide)
      | c :: rest2 =>
        obtain ⟨hw2, hch2⟩ := hch1
        have hc := g2_succ_B hw2
        subst hc
        match rest2 with
        | [] => exact Or.inr rfl
        | d :: rest3 =>
          obtain ⟨hw3, hch3⟩ := hch2
          have hd := g2_succ_C hw3
          subst hd
          match rest3 with
          | [] => exact absurd hl (by decide)
          | e :: rest4 =>
            obtain ⟨hw4, _⟩ := hch3
            exact absurd hw4 (fun h => g2_succ_D h)
    · subst hb
      match rest with
      | [] => exact Or.inl rfl
      | d :: rest2 =>
        obtain ⟨hw2, hch2⟩ := hch1
        have hd := g2_succ_C hw2
        subst hd
        match rest2 with
        | [] => exact absurd hl (by decide)
        | e :: rest3 =>
          obtain ⟨hw3, _⟩ := hch2
          exact absurd hw3 (fun h => g2_succ_D h)

theorem g2_pathProd_AC : pathProd g2 ["A", "C"] = 1/2 := by
  simp [pathProd, edgeWeight1, Graph1.outEdges, g2, List.lookup]
  try norm_num

theorem g2_pathProd_ABC : pathProd g2 ["A", "B", "C"] = 6/25 := by
  simp [pathProd, edgeWeight1, Graph1.outEdges, g2, List.lookup]
  try norm_num

theorem g2_not_max : ¬ IsMaxWalkValue g2 "A" "C" (27/50) := by
  intro hmax
  obtain ⟨⟨p, hwalk, hprod⟩, _⟩ := hmax
  rcases g2_walks p hwalk with rfl | rfl
  · rw [g2_pathProd_AC] at hprod
    norm_num at hprod
  · rw [g2_pathProd_ABC] at hprod
    norm_num at hprod

set_option maxHeartbeats 1600000 in
theorem g2_eq_addEdge_chain :
    (do
      let ga ← Graph1.empty.addEdge "A" "B" 0.6
      let gb ← ga.addEdge "B" "C" 0.4
      let gc ← gb.addEdge "C" "D" 0.5
      gc.addEdge "A" "C" 0.5) = .ok g2 := by
  simp [Graph1.addEdge, Graph1.addNode, Graph1.empty, setEdgeWeight, g2,
    List.lookup, Bind.bind, Except.bind]
  try norm_num [setEdgeWeight]
  try simp [setEdgeWeight]
  try norm_num

theorem g2_WF : WF1 g2 := by
  constructor
  · decide
  · intro pr hpr
    simp only [g2, List.mem_cons, List.not_mem_nil, or_false] at hpr
    rcases hpr with rfl | rfl | rfl | rfl <;>
      refine ⟨by decide, ?_⟩ <;> intro e he <;>
      simp only [List.mem_cons, List.not_mem_nil, or_false] at he <;>
      rcases he with rfl | rfl <;>
      refine ⟨by decide, by norm_num, by norm_num⟩

theorem g2_walk_AC : IsWalk g2 "A" "C" ["A", "C"] := by
  refine ⟨rfl, rfl, ?_, trivial⟩
  simp [edgeWeight1, Graph1.outEdges, g2, List.lookup]

/-! ### Concrete evaluation of the dual-channel scenarios -/

set_option maxHeartbeats 3200000 in
theorem g1_computeScores : g1.computeScores "A" =
    .ok [("B", ⟨0, 1, -1⟩)] := by
  simp [DGraph.computeScores, g1, initDState, PQ.empty, PQ.insert, heapifyUp, heapifyUpFuel, prioAt, parentIdx, swapAt, updFn]
  norm_num
  simp [dualLoop, PQ.extractMax, heapifyDown, heapifyDownFuel, maxChildIdx,
    prioAt, parentIdx, swapAt, processNbrsD, DGraph.outEdges, updFn,
    PQ.updatePriority, heapifyUp, heapifyUpFuel, List.findIdx?, g1]
  try norm_num
  try simp [dualLoop, PQ.extractMax, heapifyDown, heapifyDownFuel, maxChildIdx,
    prioAt, parentIdx, swapAt, processNbrsD, DGraph.outEdges, updFn,
    PQ.updatePriority, heapifyUp, heapifyUpFuel, List.findIdx?, g1]
  try norm_num

set_option maxHeartbeats 12800000 in
theorem g4_computeScores : g4.computeScores "A" =
    .ok [("U", ⟨1/2, 0, 1/2⟩), ("V", ⟨3/5, 1/10, 1/2⟩)] := by
  simp [DGraph.computeScores, g4, initDState, PQ.empty, PQ.insert, heapifyUp,
    heapifyUpFuel, prioAt, parentIdx, swapAt, updFn]
  norm_num
  simp [dualLoop, PQ.extractMax, heapifyDown, heapifyDownFuel, maxChildIdx,
    prioAt, parentIdx, swapAt, processNbrsD, DGraph.outEdges, updFn,
    PQ.updatePriority, heapifyUp, heapifyUpFuel, List.findIdx?, g4]
  try norm_num
  try simp [dualLoop, PQ.extractMax, heapifyDown, heapifyDownFuel, maxChildIdx,
    prioAt, parentIdx, swapAt, processNbrsD, DGraph.outEdges, updFn,
    PQ.updatePriority, heapifyUp, heapifyUpFuel, List.findIdx?, g4]
  try norm_num
  try simp [dualLoop, PQ.extractMax, heapifyDown, heapifyDownFuel, maxChildIdx,
    prioAt, parentIdx, swapAt, processNbrsD, DGraph.outEdges, updFn,
    PQ.updatePriority, heapifyUp, heapifyUpFuel, List.findIdx?, g4]
  try norm_num

set_option maxHeartbeats 12800000 in
theorem g4_claimed_V :
    ∀ st, st = claimedLoop g4 (initDState g4.nodes "A").pq.heap.length []
      (initDState g4.nodes "A") →
    st.p "V" = 3/5 ∧ st.n "V" = 1/2 := by
  intro st hst
  subst hst
  simp [g4, initDState, PQ.empty, PQ.insert, heapifyUp,
    heapifyUpFuel, prioAt, parentIdx, swapAt, updFn]
  norm_num
  simp [claimedLoop, processNbrsClaimed, claimedDualUpdate, PQ.extractMax,
    heapifyDown, heapifyDownFuel, maxChildIdx, prioAt, parentIdx, swapAt,
    DGraph.outEdges, updFn, PQ.updatePriority, heapifyUp, heapifyUpFuel,
    List.findIdx?, g4]
  try norm_num
  try simp [claimedLoop, processNbrsClaimed, claimedDualUpdate, PQ.extractMax,
    heapifyDown, heapifyDownFuel, maxChildIdx, prioAt, parentIdx, swapAt,
    DGraph.outEdges, updFn, PQ.updatePriority, heapifyUp, heapifyUpFuel,
    List.findIdx?, g4]
  try norm_num
  try simp [claimedLoop, processNbrsClaimed, claimedDualUpdate, PQ.extractMax,
    heapifyDown, heapifyDownFuel, maxChildIdx, prioAt, parentIdx, swapAt,
    DGraph.outEdges, updFn, PQ.updatePriority, heapifyUp, heapifyUpFuel,
    List.findIdx?, g4]
  try norm_num

set_option maxHeartbeats 6400000 in
theorem g1_cts_B : g1.computeTrustScores "A" ["B"] =
    .ok [("B", ⟨0, 1, -1⟩)] := by
  simp only [DGraph.computeTrustScores, Bind.bind, Except.bind]
  rw [g1_computeScores]
  simp [collectTargets, List.lookup, g1, Bind.bind, Except.bind]

set_option maxHeartbeats 6400000 in
theorem g1_cts_A : g1.computeTrustScores "A" ["A"] = .ok [] := by
  simp only [DGraph.computeTrustScores, Bind.bind, Except.bind]
  rw [g1_computeScores]
  simp [collectTargets, List.lookup, g1, Bind.bind, Except.bind]

set_option maxHeartbeats 6400000 in
theorem g5_run_UV : (runSched g5 "S" ["S", "U", "V", "W"]).p "W" = 1 ∧
    (runSched g5 "S" ["S", "U", "V", "W"]).n "W" = 0 := by
  simp [runSched, settleStep, settleNbrs, updFn, g5, DGraph.outEdges]
  try norm_num
  try simp [settleNbrs, updFn]
  try norm_num

set_option maxHeartbeats 6400000 in
theorem g5_run_VU : (runSched g5 "S" ["S", "V", "U", "W"]).p "W" = 1 ∧
    (runSched g5 "S" ["S", "V", "U", "W"]).n "W" = 1 := by
  simp [runSched, settleStep, settleNbrs, updFn, g5, DGraph.outEdges]
  try norm_num
  try simp [settleNbrs, updFn]
  try norm_num

set_option maxHeartbeats 6400000 in
theorem g5_valid_UV : ValidSched g5 "S" ["S", "U", "V", "W"] := by
  simp [ValidSched, ValidFrom, settleStep, settleNbrs, updFn, g5,
    DGraph.outEdges]
  try norm_num
  try simp [ValidFrom, settleStep, settleNbrs, updFn]
  try norm_num

set_option maxHeartbeats 6400000 in
theorem g5_valid_VU : ValidSched g5 "S" ["S", "V", "U", "W"] := by
  simp [ValidSched, ValidFrom, settleStep, settleNbrs, updFn, g5,
    DGraph.outEdges]
  try norm_num
  try simp [ValidFrom, settleStep, settleNbrs, updFn]
  try norm_num

/-! ### Result-assembly facts of the generalized dual-channel engine -/

theorem resultFold_spec (source : String) (fin : DState) :
    ∀ (l : List String) (acc : List (String × Score)) res,
      res = l.foldl
        (fun acc node =>
          if node ≠ source then
            acc ++ [(node, ⟨fin.p node, fin.n node, fin.p node - fin.n node⟩)]
          else acc) acc →
      ∀ pr ∈ res, pr ∈ acc ∨ (pr.1 ∈ l ∧ pr.1 ≠ source ∧
        pr.2 = ⟨fin.p pr.1, fin.n pr.1, fin.p pr.1 - fin.n pr.1⟩) := by
  intro l
  induction l with
  | nil =>
    intro acc res hres pr hpr
    rw [hres] at hpr
    exact Or.inl hpr
  | cons node rest ih =>
    intro acc res hres pr hpr
    rw [List.foldl_cons] at hres
    by_cases hn : node ≠ source
    · rw [if_pos hn] at hres
      rcases ih _ res hres pr hpr with hacc | htail
      · rcases List.mem_append.mp hacc with h1 | h1
        · exact Or.inl h1
        · rcases List.mem_singleton.mp h1 with rfl
          exact Or.inr ⟨List.mem_cons_self _ _, hn, rfl⟩
      · exact Or.inr ⟨List.mem_cons_of_mem _ htail.1, htail.2.1, htail.2.2⟩
    · rw [if_neg hn] at hres
      rcases ih _ res hres pr hpr with hacc | htail
      · exact Or.inl hacc
      · exact Or.inr ⟨List.mem_cons_of_mem _ htail.1, htail.2.1, htail.2.2⟩

/-- Every entry of a successful `computeScores` result: its key is a
non-source node and its `Score` triple reads the final maps, with
`netScore` computed as the difference. -/
theorem computeScores_entries {g : DGraph} {source : String}
    {res : List (String × Score)} (h : g.computeScores source = .ok res) :
    ∀ pr ∈ res, pr.1 ∈ g.nodes ∧ pr.1 ≠ source ∧
      ∀ fin, fin = dualLoop g (initDState g.nodes source).pq.heap.length []
        (initDState g.nodes source) →
      pr.2 = ⟨fin.p pr.1, fin.n pr.1, fin.p pr.1 - fin.n pr.1⟩ := by
  intro pr hpr
  unfold DGraph.computeScores at h
  by_cases hs : source ∉ g.nodes
  · rw [if_pos hs] at h
    exact absurd h (by simp)
  · rw [if_neg hs] at h
    simp only [Except.ok.injEq] at h
    have := resultFold_spec source _ g.nodes [] res h.symm pr hpr
    rcases this with habs | hgood
    · exact absurd habs (List.not_mem_nil pr)
    · exact ⟨hgood.1, hgood.2.1, fun fin hfin => by rw [hfin]; exact hgood.2.2⟩

theorem computeScores_error_iff (g : DGraph) (source : String) :
    (∃ err, g.computeScores source = .error err) ↔ source ∉ g.nodes := by
  unfold DGraph.computeScores
  by_cases hs : source ∉ g.nodes
  · rw [if_pos hs]
    exact ⟨fun _ => hs, fun _ => ⟨_, rfl⟩⟩
  · rw [if_neg hs]
    simp [hs]

theorem computeScores_ok_of_mem {g : DGraph} {source : String}
    (hs : source ∈ g.nodes) :
    g.computeScores source = .ok
      (g.nodes.foldl
        (fun acc node =>
          if node ≠ source then
            acc ++ [(node,
              ⟨(dualLoop g (initDState g.nodes source).pq.heap.length []
                  (initDState g.nodes source)).p node,
               (dualLoop g (initDState g.nodes source).pq.heap.length []
                  (initDState g.nodes source)).n node,
               (dualLoop g (initDState g.nodes source).pq.heap.length []
                  (initDState g.nodes source)).p node -
               (dualLoop g (initDState g.nodes source).pq.heap.length []
                  (initDState g.nodes source)).n node⟩)]
          else acc) []) := by
  unfold DGraph.computeScores
  rw [if_neg (by simpa using hs)]

theorem collectTargets_error_iff (g : DGraph)
    (allScores : List (String × Score)) :
    ∀ ts, (∃ err, collectTargets g allScores ts = .error err) ↔
      ∃ t ∈ ts, t ∉ g.nodes := by
  intro ts
  induction ts with
  | nil =>
    constructor
    · intro ⟨err, herr⟩
      exact absurd herr (by simp [collectTargets])
    · intro ⟨t, ht, _⟩
      exact absurd ht (List.not_mem_nil t)
  | cons t ts ih =>
    by_cases htn : t ∉ g.nodes
    · constructor
      · intro _
        exact ⟨t, List.mem_cons_self t ts, htn⟩
      · intro _
        exact ⟨_, by rw [collectTargets, if_pos htn]⟩
    · have hmem : t ∈ g.nodes := not_not.mp htn
      have hstep : ∀ err, (collectTargets g allScores (t :: ts) = .error err ↔
          collectTargets g allScores ts = .error err) := by
        intro err
        rw [collectTargets, if_neg htn]
        cases hl : allScores.lookup t with
        | none => rfl
        | some sc =>
          cases hr : collectTargets g allScores ts with
          | error e => simp [hr, Bind.bind, Except.bind]
          | ok r => simp [hr, Bind.bind, Except.bind]
      constructor
      · intro ⟨err, herr⟩
        obtain ⟨t', ht', hn'⟩ := ih.mp ⟨err, (hstep err).mp herr⟩
        exact ⟨t', List.mem_cons_of_mem t ht', hn'⟩
      · intro ⟨t', ht', hn'⟩
        rcases List.mem_cons.mp ht' with rfl | ht''
        · exact absurd hn' (fun h => h hmem)
        · obtain ⟨err, herr⟩ := ih.mpr ⟨t', ht'', hn'⟩
          exact ⟨err, (hstep err).mpr herr⟩

theorem collectTargets_sub (g : DGraph) (allScores : List (String × Score)) :
    ∀ ts res, collectTargets g allScores ts = .ok res →
      ∀ pr ∈ res, pr ∈ allScores := by
  intro ts
  induction ts with
  | nil =>
    intro res hres pr hpr
    rw [collectTargets] at hres
    simp only [Except.ok.injEq] at hres
    rw [← hres] at hpr
    exact absurd hpr (List.not_mem_nil pr)
  | cons t ts ih =>
    intro res hres pr hpr
    rw [collectTargets] at hres
    by_cases htn : t ∉ g.nodes
    · rw [if_pos htn] at hres
      exact absurd hres (by simp)
    · rw [if_neg htn] at hres
      cases hl : allScores.lookup t with
      | none =>
        rw [hl] at hres
        exact ih res hres pr hpr
      | some sc =>
        rw [hl] at hres
        cases hr : collectTargets g allScores ts with
        | error e =>
          rw [hr] at hres
          exact absurd hres (by simp [Bind.bind, Except.bind])
        | ok r =>
          rw [hr] at hres
          simp only [Bind.bind, Except.bind, Except.ok.injEq] at hres
          rw [← hres] at hpr
          rcases List.mem_cons.mp hpr with rfl | hpr'
          · exact mem_of_lookup_eq_some hl
          · exact ih r hr pr hpr'

theorem filterFold_sub (source : String) :
    ∀ (l acc : List (String × Score)) res,
      res = l.foldl (fun acc pr => if pr.1 ≠ source then acc ++ [pr] else acc)
        acc →
      ∀ pr ∈ res, pr ∈ acc ∨ pr ∈ l := by
  intro l
  induction l with
  | nil =>
    intro acc res hres pr hpr
    rw [hres] at hpr
    exact Or.inl hpr
  | cons e rest ih =>
    intro acc res hres pr hpr
    rw [List.foldl_cons] at hres
    by_cases hn : e.1 ≠ source
    · rw [if_pos hn] at hres
      rcases ih _ res hres pr hpr with hacc | hrest
      · rcases List.mem_append.mp hacc with h1 | h1
        · exact Or.inl h1
        · exact Or.inr (List.mem_cons.mpr (Or.inl (List.mem_singleton.mp h1)))
      · exact Or.inr (List.mem_cons_of_mem e hrest)
    · rw [if_neg hn] at hres
      rcases ih _ res hres pr hpr with hacc | hrest
      · exact Or.inl hacc
      · exact Or.inr (List.mem_cons_of_mem e hrest)

/-- Every entry of a successful `computeTrustScores` result is an entry of
the underlying `computeScores` result. -/
theorem computeTrustScores_sub {g : DGraph} {source : String}
    {ts : List String} {res : List (String × Score)}
    (h : g.computeTrustScores source ts = .ok res) :
    ∃ allScores, g.computeScores source = .ok allScores ∧
      ∀ pr ∈ res, pr ∈ allScores := by
  unfold DGraph.computeTrustScores at h
  cases hcs : g.computeScores source with
  | error e =>
    rw [hcs] at h
    exact absurd h (by simp [Bind.bind, Except.bind])
  | ok allScores =>
    rw [hcs] at h
    simp only [Bind.bind, Except.bind] at h
    refine ⟨allScores, rfl, ?_⟩
    by_cases hlen : ts.length = 0
    · rw [if_pos hlen] at h
      simp only [Except.ok.injEq] at h
      intro pr hpr
      rcases filterFold_sub source allScores [] res h.symm pr hpr with habs | hm
      · exact absurd habs (List.not_mem_nil pr)
      · exact hm
    · rw [if_neg hlen] at h
      exact collectTargets_sub g allScores ts res h

/-- The final score maps are never consulted for the source: the result of
`computeScores` holds no entry keyed by the source. -/
theorem computeScores_lookup_source {g : DGraph} {source : String}
    {res : List (String × Score)} (h : g.computeScores source = .ok res) :
    res.lookup source = none := by
  rw [List.lookup_eq_none_iff]
  intro pr hpr
  have := (computeScores_entries h pr hpr).2.1
  simp only [bne_iff_ne, ne_eq]
  exact fun hc => this hc.symm

/-! ### Bounds and monotonicity of the dual-channel propagation -/

theorem WFD_outEdges {g : DGraph} (h : WFD g) :
    ∀ u, ∀ e ∈ g.outEdges u, e.1 ∈ g.nodes ∧
      0 ≤ e.2.1 ∧ e.2.1 ≤ 1 ∧ 0 ≤ e.2.2 ∧ e.2.2 ≤ 1 := by
  intro u e he
  unfold DGraph.outEdges at he
  obtain ⟨e0, he0, he0e⟩ := List.mem_map.mp he
  have hmem := List.mem_of_mem_filter he0
  obtain ⟨_, h1, h2, h3, h4, h5⟩ := h.2 e0 hmem
  rw [← he0e]
  exact ⟨h1, h2, h3, h4, h5⟩

/-- One pass of the generalized engine's neighbour loop keeps both channel
maps inside `[0, 1]` and never decreases either of them. -/
theorem processNbrsD_bm :
    ∀ (nbrs : List (String × ℚ × ℚ)) (inspected : List String) (Eu : ℚ)
      (st : DState),
      (∀ e ∈ nbrs, 0 ≤ e.2.1 ∧ e.2.1 ≤ 1 ∧ 0 ≤ e.2.2 ∧ e.2.2 ≤ 1) →
      0 ≤ Eu → Eu ≤ 1 →
      (∀ x, 0 ≤ st.p x ∧ st.p x ≤ 1 ∧ 0 ≤ st.n x ∧ st.n x ≤ 1) →
      ∀ st', st' = processNbrsD inspected Eu nbrs st →
      (∀ x, 0 ≤ st'.p x ∧ st'.p x ≤ 1 ∧ 0 ≤ st'.n x ∧ st'.n x ≤ 1) ∧
      (∀ x, st.p x ≤ st'.p x ∧ st.n x ≤ st'.n x) := by
  intro nbrs
  induction nbrs with
  | nil =>
    intro inspected Eu st _ _ _ hb st' hst
    rw [hst]
    exact ⟨hb, fun x => ⟨le_rfl, le_rfl⟩⟩
  | cons e rest ih =>
    intro inspected Eu st hw h0 h1 hb st' hst
    obtain ⟨hw1, hw2, hw3, hw4⟩ := hw e (List.mem_cons_self e rest)
    have hwrest : ∀ e' ∈ rest, 0 ≤ e'.2.1 ∧ e'.2.1 ≤ 1 ∧ 0 ≤ e'.2.2 ∧
        e'.2.2 ≤ 1 := fun e' he' => hw e' (List.mem_cons_of_mem e he')
    rw [processNbrsD] at hst
    by_cases hg : e.1 ∉ inspected ∧ st.p e.1 - st.n e.1 < Eu
    · rw [if_pos hg] at hst
      simp only [] at hst
      set p' := if Eu > st.p e.1 then
        updFn st.p e.1 (st.p e.1 + (Eu - st.p e.1) * e.2.1) else st.p with hp'
      set n' := if Eu > st.n e.1 then
        updFn st.n e.1 (st.n e.1 + (Eu - st.n e.1) * e.2.2) else st.n with hn'
      have hbp : ∀ x, (0 ≤ p' x ∧ p' x ≤ 1) ∧ st.p x ≤ p' x := by
        intro x
        rw [hp']
        split_ifs with hc
        · unfold updFn
          split_ifs with hx
          · refine ⟨⟨interp_nonneg (hb e.1).1 h0 hw1 hw2,
              interp_le_one (hb e.1).2.1 h1 hw1 hw2⟩, ?_⟩
            have hnn : 0 ≤ (Eu - st.p e.1) * e.2.1 :=
              mul_nonneg (by linarith) hw1
            rw [hx]
            linarith
          · exact ⟨⟨(hb x).1, (hb x).2.1⟩, le_rfl⟩
        · exact ⟨⟨(hb x).1, (hb x).2.1⟩, le_rfl⟩
      have hbn : ∀ x, (0 ≤ n' x ∧ n' x ≤ 1) ∧ st.n x ≤ n' x := by
        intro x
        rw [hn']
        split_ifs with hc
        · unfold updFn
          split_ifs with hx
          · refine ⟨⟨interp_nonneg (hb e.1).2.2.1 h0 hw3 hw4,
              interp_le_one (hb e.1).2.2.2 h1 hw3 hw4⟩, ?_⟩
            have hnn : 0 ≤ (Eu - st.n e.1) * e.2.2 :=
              mul_nonneg (by linarith) hw3
            rw [hx]
            linarith
          · exact ⟨⟨(hb x).2.2.1, (hb x).2.2.2⟩, le_rfl⟩
        · exact ⟨⟨(hb x).2.2.1, (hb x).2.2.2⟩, le_rfl⟩
      have hmid : ∀ x, 0 ≤ p' x ∧ p' x ≤ 1 ∧ 0 ≤ n' x ∧ n' x ≤ 1 :=
        fun x => ⟨(hbp x).1.1, (hbp x).1.2, (hbn x).1.1, (hbn x).1.2⟩
      obtain ⟨hfin, hmono⟩ := ih inspected Eu
        ⟨p', n', st.pq.updatePriority e.1 (p' e.1 - n' e.1)⟩
        hwrest h0 h1 hmid st' hst
      exact ⟨hfin, fun x => ⟨le_trans (hbp x).2 (hmono x).1,
        le_trans (hbn x).2 (hmono x).2⟩⟩
    · rw [if_neg hg] at hst
      exact ih inspected Eu st hwrest h0 h1 hb st' hst

/-- The full propagation loop of the generalized engine keeps both channel
maps inside `[0, 1]` and never decreases either of them. -/
theorem dualLoop_bm {g : DGraph} (hWFD : WFD g) :
    ∀ (fuel : ℕ) (inspected : List String) (st : DState),
      (∀ x, 0 ≤ st.p x ∧ st.p x ≤ 1 ∧ 0 ≤ st.n x ∧ st.n x ≤ 1) →
      ∀ st', st' = dualLoop g fuel inspected st →
      (∀ x, 0 ≤ st'.p x ∧ st'.p x ≤ 1 ∧ 0 ≤ st'.n x ∧ st'.n x ≤ 1) ∧
      (∀ x, st.p x ≤ st'.p x ∧ st.n x ≤ st'.n x) := by
  intro fuel
  induction fuel with
  | zero =>
    intro inspected st hb st' hst
    rw [hst]
    exact ⟨hb, fun x => ⟨le_rfl, le_rfl⟩⟩
  | succ fuel ih =>
    intro inspected st hb st' hst
    rw [dualLoop] at hst
    cases hx : st.pq.extractMax with
    | none =>
      rw [hx] at hst
      rw [hst]
      exact ⟨hb, fun x => ⟨le_rfl, le_rfl⟩⟩
    | some epq =>
      rw [hx] at hst
      simp only [] at hst
      by_cases hi : epq.1.1 ∈ inspected
      · rw [if_pos hi] at hst
        exact ih inspected ⟨st.p, st.n, epq.2⟩ hb st' hst
      · rw [if_neg hi] at hst
        set Eu := max (st.p epq.1.1 - st.n epq.1.1) 0 with hEu
        have h0 : 0 ≤ Eu := le_max_right _ _
        have h1 : Eu ≤ 1 := by
          rw [hEu]
          have hp1 := (hb epq.1.1).2.1
          have hn0 := (hb epq.1.1).2.2.1
          apply max_le (by linarith) (by norm_num)
        obtain ⟨hmid, hmono1⟩ := processNbrsD_bm (g.outEdges epq.1.1)
          (epq.1.1 :: inspected) Eu ⟨st.p, st.n, epq.2⟩
          (fun e he => (WFD_outEdges hWFD epq.1.1 e he).2) h0 h1 hb _ rfl
        obtain ⟨hfin, hmono2⟩ := ih (epq.1.1 :: inspected) _ hmid st' hst
        exact ⟨hfin, fun x => ⟨le_trans (hmono1 x).1 (hmono2 x).1,
          le_trans (hmono1 x).2 (hmono2 x).2⟩⟩

/-- The initialization of the dual-channel engines: `P` is the indicator of
the source on the node list and `N` is identically zero. -/
theorem initDState_spec (source : String) :
    ∀ (l : List String) (st0 : DState) res, res = l.foldl
        (fun st node =>
          let pScore : ℚ := if node = source then 1 else 0
          ⟨updFn st.p node pScore, updFn st.n node 0, st.pq.insert node pScore⟩)
        st0 →
      (∀ x, res.p x = if x ∈ l then (if x = source then (1 : ℚ) else 0)
        else st0.p x) ∧
      (∀ x, res.n x = if x ∈ l then 0 else st0.n x) := by
  intro l
  induction l with
  | nil =>
    intro st0 res hres
    rw [hres]
    exact ⟨fun x => by simp, fun x => by simp⟩
  | cons node rest ih =>
    intro st0 res hres
    rw [List.foldl_cons] at hres
    obtain ⟨ip, inn⟩ := ih _ res hres
    constructor
    · intro x
      rw [ip x]
      by_cases hxr : x ∈ rest
      · rw [if_pos hxr, if_pos (List.mem_cons_of_mem node hxr)]
      · rw [if_neg hxr]
        by_cases hxn : x = node
        · subst hxn
          rw [if_pos (List.mem_cons_self x rest)]
          show updFn st0.p x _ x = _
          rw [updFn, if_pos rfl]
        · rw [if_neg (show x ∉ node :: rest by
            rw [List.mem_cons]
            push_neg
            exact ⟨hxn, hxr⟩)]
          show updFn st0.p node _ x = st0.p x
          rw [updFn, if_neg hxn]
    · intro x
      rw [inn x]
      by_cases hxr : x ∈ rest
      · rw [if_pos hxr, if_pos (List.mem_cons_of_mem node hxr)]
      · rw [if_neg hxr]
        by_cases hxn : x = node
        · subst hxn
          rw [if_pos (List.mem_cons_self x rest)]
          show updFn st0.n x 0 x = _
          rw [updFn, if_pos rfl]
        · rw [if_neg (show x ∉ node :: rest by
            rw [List.mem_cons]
            push_neg
            exact ⟨hxn, hxr⟩)]
          show updFn st0.n node 0 x = st0.n x
          rw [updFn, if_neg hxn]

theorem initDState_bounds (nodes : List String) (source : String) :
    ∀ x, 0 ≤ (initDState nodes source).p x ∧
      (initDState nodes source).p x ≤ 1 ∧
      (initDState nodes source).n x = 0 := by
  obtain ⟨ip, inn⟩ := initDState_spec source nodes
    ⟨fun _ => 0, fun _ => 0, PQ.empty⟩ _ rfl
  intro x
  unfold initDState
  refine ⟨?_, ?_, ?_⟩
  · rw [ip x]; split_ifs <;> norm_num
  · rw [ip x]; split_ifs <;> norm_num
  · rw [inn x]; split_ifs <;> norm_num

set_option maxHeartbeats 12800000 in
theorem g5_computeScores : g5.computeScores "S" =
    .ok [("U", ⟨1, 0, 1⟩), ("V", ⟨1, 0, 1⟩), ("W", ⟨1, 0, 1⟩)] := by
  simp [DGraph.computeScores, g5, initDState, PQ.empty, PQ.insert, heapifyUp,
    heapifyUpFuel, prioAt, parentIdx, swapAt, updFn]
  norm_num
  simp [dualLoop, PQ.extractMax, heapifyDown, heapifyDownFuel, maxChildIdx,
    prioAt, parentIdx, swapAt, processNbrsD, DGraph.outEdges, updFn,
    PQ.updatePriority, heapifyUp, heapifyUpFuel, List.findIdx?, g5]
  try norm_num
  try simp [dualLoop, PQ.extractMax, heapifyDown, heapifyDownFuel, maxChildIdx,
    prioAt, parentIdx, swapAt, processNbrsD, DGraph.outEdges, updFn,
    PQ.updatePriority, heapifyUp, heapifyUpFuel, List.findIdx?, g5]
  try norm_num
  try simp [dualLoop, PQ.extractMax, heapifyDown, heapifyDownFuel, maxChildIdx,
    prioAt, parentIdx, swapAt, processNbrsD, DGraph.outEdges, updFn,
    PQ.updatePriority, heapifyUp, heapifyUpFuel, List.findIdx?, g5]
  try norm_num
  try simp [dualLoop, PQ.extractMax, heapifyDown, heapifyDownFuel, maxChildIdx,
    prioAt, parentIdx, swapAt, processNbrsD, DGraph.outEdges, updFn,
    PQ.updatePriority, heapifyUp, heapifyUpFuel, List.findIdx?, g5]
  try norm_num

theorem sampleQ_reachable : Reachable sampleQ :=
  .insert "b" 2 (.insert "a" 1 .empty)

theorem computeScores_error_msg {g : DGraph} {s : String} {err : String}
    (h : g.computeScores s = .error err) :
    s ∉ g.nodes ∧ err = "Source node \u0022" ++ s ++ "\u0022 not found in the graph" := by
  unfold DGraph.computeScores at h
  by_cases hs : s ∉ g.nodes
  · rw [if_pos hs] at h
    simp only [Except.error.injEq] at h
    exact ⟨hs, h.symm⟩
  · rw [if_neg hs] at h
    exact absurd h (by simp)

theorem collectTargets_error_msg (g : DGraph)
    (allScores : List (String × Score)) :
    ∀ ts err, collectTargets g allScores ts = .error err →
      ∃ t ∈ ts, t ∉ g.nodes ∧
        err = "Target node \u0022" ++ t ++ "\u0022 not found in the graph" := by
  intro ts
  induction ts with
  | nil =>
    intro err herr
    rw [collectTargets] at herr
    exact absurd herr (by simp)
  | cons t ts ih =>
    intro err herr
    rw [collectTargets] at herr
    by_cases htn : t ∉ g.nodes
    · rw [if_pos htn] at herr
      simp only [Except.error.injEq] at herr
      exact ⟨t, List.mem_cons_self t ts, htn, herr.symm⟩
    · rw [if_neg htn] at herr
      cases hl : allScores.lookup t with
      | none =>
        rw [hl] at herr
        obtain ⟨t', ht', hn', he'⟩ := ih err herr
        exact ⟨t', List.mem_cons_of_mem t ht', hn', he'⟩
      | some sc =>
        rw [hl] at herr
        cases hr : collectTargets g allScores ts with
        | error e =>
          rw [hr] at herr
          simp only [Bind.bind, Except.bind, Except.error.injEq] at herr
          obtain ⟨t', ht', hn', he'⟩ := ih e hr
          exact ⟨t', List.mem_cons_of_mem t ht', hn', herr ▸ he'⟩
        | ok r =>
          rw [hr] at herr
          exact absurd herr (by simp [Bind.bind, Except.bind])

/-! ### The claims -/

/-- C1 (counterexample): on the reference graph, `computeTrustScore A C`
returns `27/50 = 0.54`, but `0.54` is not the maximum over directed walks
from `A` to `C` of the product of the edge weights along the walk (the two
walks have products `1/2` and `6/25`), so the propagated score is not the
maximum-product path value. -/
theorem C1_counterexample :
    g2.computeTrustScore "A" "C" = .ok (27/50) ∧
    ¬ IsMaxWalkValue g2 "A" "C" (27/50) :=
  ⟨g2_score_C, g2_not_max⟩

/-- C1 (amended): on every well-formed graph, a successful
`computeTrustScore source target` returns a value that is greater than or
equal to the edge-weight product of every directed walk from the source to
the target; the interpolation update can exceed the maximum path product, so
only this lower bound holds. -/
theorem C1_path_lower_bound (g : Graph1) (hWF : WF1 g) (s t : String)
    (r : ℚ) (p : List String) (hok : g.computeTrustScore s t = .ok r)
    (hwalk : IsWalk g s t p) : pathProd g p ≤ r :=
  computeTrustScore_ge_pathProd hWF hok p hwalk

theorem C1_path_lower_bound_witness :
    WF1 g2 ∧ g2.computeTrustScore "A" "C" = .ok (27/50) ∧
    IsWalk g2 "A" "C" ["A", "C"] ∧ pathProd g2 ["A", "C"] ≤ 27/50 :=
  ⟨g2_WF, g2_score_C, g2_walk_AC,
    C1_path_lower_bound g2 g2_WF "A" "C" (27/50) ["A", "C"] g2_score_C
      g2_walk_AC⟩

/-- C2: building the single-channel graph by the `addEdge` calls
`A→B=0.6, B→C=0.4, C→D=0.5, A→C=0.5` succeeds and produces the reference
graph, and `computeTrustScore` from source `A` returns `0.6` for target `B`,
`0.54` for target `C` and `0.27` for target `D`. -/
theorem C2_reference_scores :
    (do
      let ga ← Graph1.empty.addEdge "A" "B" 0.6
      let gb ← ga.addEdge "B" "C" 0.4
      let gc ← gb.addEdge "C" "D" 0.5
      gc.addEdge "A" "C" 0.5) = .ok g2 ∧
    g2.computeTrustScore "A" "B" = .ok 0.6 ∧
    g2.computeTrustScore "A" "C" = .ok 0.54 ∧
    g2.computeTrustScore "A" "D" = .ok 0.27 := by
  refine ⟨g2_eq_addEdge_chain, ?_, ?_, ?_⟩
  · rw [g2_score_B]
    norm_num
  · rw [g2_score_C]
    norm_num
  · rw [g2_score_D]
    norm_num

/-- C3 (counterexample): the per-neighbour update of the generalized
dual-channel engine is *not* applied whenever its own channel condition
holds: with `Eu = 1/2` settling `U`, and the neighbour `V` at
`P(V) = 3/5, N(V) = 1/10`, the spec's rule (`Eu > N(V)`) would raise `N(V)`
to `1/2`, but the engine's net-score gate `P(V) - N(V) < Eu` fails and
`N(V)` stays `1/10`; end to end, on the graph `A→U(0.5,0), A→V(0.6,0.1),
U→V(0,1)` the engine returns `N(V) = 1/10` where the spec's ungated loop
yields `N(V) = 1/2`. -/
theorem C3_counterexample :
    (processNbrsD ["U"] (1/2) [("V", 0, 1)]
        ⟨updFn (fun _ => 0) "V" (3/5), updFn (fun _ => 0) "V" (1/10),
         PQ.empty⟩).n "V" = 1/10 ∧
    claimedDualUpdate (1/2) (3/5) (1/10) 0 1 = (3/5, 1/2) ∧
    g4.computeScores "A" =
      .ok [("U", ⟨1/2, 0, 1/2⟩), ("V", ⟨3/5, 1/10, 1/2⟩)] ∧
    (claimedLoop g4 (initDState g4.nodes "A").pq.heap.length []
      (initDState g4.nodes "A")).n "V" = 1/2 := by
  refine ⟨?_, ?_, g4_computeScores, (g4_claimed_V _ rfl).2⟩
  · rw [processNbrsD]
    rw [if_neg ?_]
    · rw [processNbrsD]
      show updFn (fun _ => 0) "V" (1/10) "V" = 1/10
      rw [updFn, if_pos rfl]
    · intro hc
      have := hc.2
      simp only [updFn, if_pos rfl] at this
      norm_num at this
  · unfold claimedDualUpdate
    norm_num

/-- C3 (amended): for an uninspected neighbour, the engine applies the
spec's dual-channel update exactly when the additional net-score gate
`P(v) - N(v) < Eu` holds, and leaves both channels unchanged otherwise. -/
theorem C3_gated_dual_update (inspected : List String) (Eu pw nw : ℚ)
    (v : String) (st : DState) (hv : v ∉ inspected) :
    (st.p v - st.n v < Eu →
      ((processNbrsD inspected Eu [(v, pw, nw)] st).p v,
       (processNbrsD inspected Eu [(v, pw, nw)] st).n v) =
        claimedDualUpdate Eu (st.p v) (st.n v) pw nw) ∧
    (¬ (st.p v - st.n v < Eu) →
      (processNbrsD inspected Eu [(v, pw, nw)] st).p v = st.p v ∧
      (processNbrsD inspected Eu [(v, pw, nw)] st).n v = st.n v) := by
  constructor
  · intro hgate
    rw [processNbrsD, if_pos ⟨hv, hgate⟩]
    show ((processNbrsD inspected Eu [] _).p v,
      (processNbrsD inspected Eu [] _).n v) = _
    rw [processNbrsD]
    unfold claimedDualUpdate
    simp only [Prod.mk.injEq]
    constructor
    · show (if Eu > st.p v then updFn st.p v (st.p v + (Eu - st.p v) * pw)
        else st.p) v = _
      split_ifs with hc
      · rw [updFn, if_pos rfl]
      · rfl
    · show (if Eu > st.n v then updFn st.n v (st.n v + (Eu - st.n v) * nw)
        else st.n) v = _
      split_ifs with hc
      · rw [updFn, if_pos rfl]
      · rfl
  · intro hng
    rw [processNbrsD, if_neg (fun h => hng h.2)]
    exact ⟨rfl, rfl⟩

theorem C3_gated_dual_update_witness :
    (("V" : String) ∉ (["U"] : List String)) ∧
    (((updFn (fun _ => 0) "V" (3/5) : String → ℚ) "V" -
        (updFn (fun _ => 0) "V" (1/10) : String → ℚ) "V" < 1/2 →
      ((processNbrsD ["U"] (1/2) [("V", 0, 1)]
          ⟨updFn (fun _ => 0) "V" (3/5), updFn (fun _ => 0) "V" (1/10),
           PQ.empty⟩).p "V",
       (processNbrsD ["U"] (1/2) [("V", 0, 1)]
          ⟨updFn (fun _ => 0) "V" (3/5), updFn (fun _ => 0) "V" (1/10),
           PQ.empty⟩).n "V") =
        claimedDualUpdate (1/2)
          ((updFn (fun _ => 0) "V" (3/5) : String → ℚ) "V")
          ((updFn (fun _ => 0) "V" (1/10) : String → ℚ) "V") 0 1) ∧
     (¬ ((updFn (fun _ => 0) "V" (3/5) : String → ℚ) "V" -
          (updFn (fun _ => 0) "V" (1/10) : String → ℚ) "V" < 1/2) →
      (processNbrsD ["U"] (1/2) [("V", 0, 1)]
          ⟨updFn (fun _ => 0) "V" (3/5), updFn (fun _ => 0) "V" (1/10),
           PQ.empty⟩).p "V" =
        (updFn (fun _ => 0) "V" (3/5) : String → ℚ) "V" ∧
      (processNbrsD ["U"] (1/2) [("V", 0, 1)]
          ⟨updFn (fun _ => 0) "V" (3/5), updFn (fun _ => 0) "V" (1/10),
           PQ.empty⟩).n "V" =
        (updFn (fun _ => 0) "V" (1/10) : String → ℚ) "V")) :=
  ⟨by decide,
   C3_gated_dual_update ["U"] (1/2) 0 1 "V"
     ⟨updFn (fun _ => 0) "V" (3/5), updFn (fun _ => 0) "V" (1/10), PQ.empty⟩
     (by decide)⟩

/-- C4: throughout the generalized dual-channel propagation — at
initialization, across each neighbour-processing pass, across the whole
loop, and in the returned result — every node's scores satisfy
`0 ≤ P(x) ≤ 1` and `0 ≤ N(x) ≤ 1`, and both maps are monotonically
non-decreasing over the computation. -/
theorem C4_bounds_and_monotonicity :
    (∀ (nodes : List String) (source x : String),
      0 ≤ (initDState nodes source).p x ∧ (initDState nodes source).p x ≤ 1 ∧
      (initDState nodes source).n x = 0) ∧
    (∀ (nbrs : List (String × ℚ × ℚ)) (inspected : List String) (Eu : ℚ)
        (st : DState),
      (∀ e ∈ nbrs, 0 ≤ e.2.1 ∧ e.2.1 ≤ 1 ∧ 0 ≤ e.2.2 ∧ e.2.2 ≤ 1) →
      0 ≤ Eu → Eu ≤ 1 →
      (∀ x, 0 ≤ st.p x ∧ st.p x ≤ 1 ∧ 0 ≤ st.n x ∧ st.n x ≤ 1) →
      (∀ x, 0 ≤ (processNbrsD inspected Eu nbrs st).p x ∧
        (processNbrsD inspected Eu nbrs st).p x ≤ 1 ∧
        0 ≤ (processNbrsD inspected Eu nbrs st).n x ∧
        (processNbrsD inspected Eu nbrs st).n x ≤ 1) ∧
      (∀ x, st.p x ≤ (processNbrsD inspected Eu nbrs st).p x ∧
        st.n x ≤ (processNbrsD inspected Eu nbrs st).n x)) ∧
    (∀ (g : DGraph), WFD g → ∀ (fuel : ℕ) (inspected : List String)
        (st : DState),
      (∀ x, 0 ≤ st.p x ∧ st.p x ≤ 1 ∧ 0 ≤ st.n x ∧ st.n x ≤ 1) →
      (∀ x, 0 ≤ (dualLoop g fuel inspected st).p x ∧
        (dualLoop g fuel inspected st).p x ≤ 1 ∧
        0 ≤ (dualLoop g fuel inspected st).n x ∧
        (dualLoop g fuel inspected st).n x ≤ 1) ∧
      (∀ x, st.p x ≤ (dualLoop g fuel inspected st).p x ∧
        st.n x ≤ (dualLoop g fuel inspected st).n x)) ∧
    (∀ (g : DGraph) (s : String) (res : List (String × Score)), WFD g →
      g.computeScores s = .ok res →
      ∀ pr ∈ res, 0 ≤ pr.2.positiveScore ∧ pr.2.positiveScore ≤ 1 ∧
        0 ≤ pr.2.negativeScore ∧ pr.2.negativeScore ≤ 1) := by
  refine ⟨initDState_bounds, ?_, ?_, ?_⟩
  · intro nbrs inspected Eu st hw h0 h1 hb
    exact processNbrsD_bm nbrs inspected Eu st hw h0 h1 hb _ rfl
  · intro g hWFD fuel inspected st hb
    exact dualLoop_bm hWFD fuel inspected st hb _ rfl
  · intro g s res hWFD h pr hpr
    obtain ⟨_, _, hfin⟩ := computeScores_entries h pr hpr
    have hinit : ∀ x, 0 ≤ (initDState g.nodes s).p x ∧
        (initDState g.nodes s).p x ≤ 1 ∧
        0 ≤ (initDState g.nodes s).n x ∧ (initDState g.nodes s).n x ≤ 1 := by
      intro x
      obtain ⟨a, b, c⟩ := initDState_bounds g.nodes s x
      exact ⟨a, b, le_of_eq c.symm, by rw [c]; norm_num⟩
    obtain ⟨hfb, _⟩ := dualLoop_bm hWFD
      (initDState g.nodes s).pq.heap.length [] (initDState g.nodes s)
      hinit _ rfl
    rw [hfin _ rfl]
    obtain ⟨a, b, c, d⟩ := hfb pr.1
    exact ⟨a, b, c, d⟩

/-- C5 (counterexample): on the graph `S→U(1,0), S→V(1,0), U→W(1,0),
V→W(0,1)` the nodes `U` and `V` are tied in priority after `S` settles; both
settle orders are valid extraction orders of the engine's queue, yet they
leave `W` with different negative scores — the result depends on how the
tie is broken. -/
theorem C5_counterexample :
    ValidSched g5 "S" ["S", "U", "V", "W"] ∧
    ValidSched g5 "S" ["S", "V", "U", "W"] ∧
    (runSched g5 "S" ["S", "U", "V", "W"]).n "W" ≠
      (runSched g5 "S" ["S", "V", "U", "W"]).n "W" := by
  refine ⟨g5_valid_UV, g5_valid_VU, ?_⟩
  rw [g5_run_UV.2, g5_run_VU.2]
  norm_num

/-- C5 (amended): the computation is deterministic in the purity sense —
the same graph and source always produce the same result — and the engine's
deterministic heap realizes one particular tie-break: on the tied graph its
result agrees with the `S,U,V,W` settle order (`N(W) = 0`), not with the
equally valid `S,V,U,W` order. -/
theorem C5_determinism_amended :
    (∀ (g : DGraph) (s : String) (ts : List String),
      g.computeTrustScores s ts = g.computeTrustScores s ts) ∧
    g5.computeScores "S" =
      .ok [("U", ⟨1, 0, 1⟩), ("V", ⟨1, 0, 1⟩), ("W", ⟨1, 0, 1⟩)] ∧
    (runSched g5 "S" ["S", "U", "V", "W"]).p "W" = 1 ∧
    (runSched g5 "S" ["S", "U", "V", "W"]).n "W" = 0 :=
  ⟨fun _ _ _ => rfl, g5_computeScores, g5_run_UV.1, g5_run_UV.2⟩

/-- C6: `computeTrustScores` fails precisely when the source is missing
from the graph or some requested target is missing from the graph; the
error raised is always one of the two `NodeNotFound` messages, and `Except`
returns either the error or the full result, never both. -/
theorem C6_nodeNotFound_iff (g : DGraph) (s : String) (ts : List String) :
    ((∃ err, g.computeTrustScores s ts = .error err) ↔
      s ∉ g.nodes ∨ ∃ t ∈ ts, t ∉ g.nodes) ∧
    (∀ err, g.computeTrustScores s ts = .error err →
      (s ∉ g.nodes ∧
        err = "Source node \u0022" ++ s ++ "\u0022 not found in the graph") ∨
      (∃ t ∈ ts, t ∉ g.nodes ∧
        err = "Target node \u0022" ++ t ++ "\u0022 not found in the graph")) := by
  constructor
  · unfold DGraph.computeTrustScores
    by_cases hs : s ∈ g.nodes
    · rw [computeScores_ok_of_mem hs]
      simp only [Bind.bind, Except.bind]
      by_cases hlen : ts.length = 0
      · rw [if_pos hlen]
        have hts : ts = [] := List.length_eq_zero.mp hlen
        subst hts
        constructor
        · intro ⟨err, herr⟩
          exact absurd herr (by simp)
        · intro h
          rcases h with h1 | ⟨t, ht, _⟩
          · exact absurd hs h1
          · exact absurd ht (List.not_mem_nil t)
      · rw [if_neg hlen]
        rw [collectTargets_error_iff]
        constructor
        · exact Or.inr
        · intro h
          rcases h with h1 | h2
          · exact absurd hs h1
          · exact h2
    · obtain ⟨err, herr⟩ := (computeScores_error_iff g s).mpr hs
      rw [herr]
      simp only [Bind.bind, Except.bind]
      exact ⟨fun _ => Or.inl hs, fun _ => ⟨err, rfl⟩⟩
  · intro err herr
    unfold DGraph.computeTrustScores at herr
    cases hcs : g.computeScores s with
    | error e =>
      rw [hcs] at herr
      simp only [Bind.bind, Except.bind, Except.error.injEq] at herr
      obtain ⟨hns, hmsg⟩ := computeScores_error_msg hcs
      exact Or.inl ⟨hns, herr ▸ hmsg⟩
    | ok allScores =>
      rw [hcs] at herr
      simp only [Bind.bind, Except.bind] at herr
      by_cases hlen : ts.length = 0
      · rw [if_pos hlen] at herr
        exact absurd herr (by simp)
      · rw [if_neg hlen] at herr
        exact Or.inr (collectTargets_error_msg g allScores ts err herr)

/-- C7: the signed single-channel `addEdge` accepts exactly the weights
strictly between `-1` and `1`, and rejects every other weight with the
`InvalidWeight` error message. -/
theorem C7_signed_weight_range (g : DGraph) (s t : String) (w : ℚ) :
    ((∃ g', addEdgeSigned g s t w = .ok g') ↔ (-1 < w ∧ w < 1)) ∧
    (addEdgeSigned g s t w =
        .error "Weight must be a number between -1 and 1 (exclusive)" ↔
      (w ≤ -1 ∨ 1 ≤ w)) := by
  unfold addEdgeSigned
  by_cases h : w ≤ -1 ∨ 1 ≤ w
  · rw [if_pos h]
    constructor
    · constructor
      · intro ⟨g', hg⟩
        exact absurd hg (by simp)
      · intro hw
        exact absurd h (by push_neg; exact ⟨hw.1, hw.2⟩)
    · exact ⟨fun _ => h, fun _ => rfl⟩
  · rw [if_neg h]
    push_neg at h
    constructor
    · constructor
      · intro _
        exact ⟨by linarith [h.1], by linarith [h.2]⟩
      · intro _
        split_ifs with h0
        · exact ⟨_, rfl⟩
        · exact ⟨_, rfl⟩
    · constructor
      · intro habs
        split_ifs at habs
      · intro hor
        rcases hor with h1 | h1
        · exact absurd h1 (by linarith [h.1])
        · exact absurd h1 (by linarith [h.2])

/-- C8: for every reachable queue state, `extractMax` returns `none` on an
empty heap, and on a non-empty heap removes and returns an entry whose
priority dominates every entry of the heap, leaving the remaining entries
(again a reachable state). -/
theorem C8_extractMax_spec (q : PQ String) (hq : Reachable q) :
    (q.heap = [] → q.extractMax = none) ∧
    (q.heap ≠ [] → ∃ e q', q.extractMax = some (e, q') ∧
      (∀ x ∈ q.heap, x.2 ≤ e.2) ∧ (e :: q'.heap).Perm q.heap ∧
      Reachable q') := by
  constructor
  · exact (extractMax_eq_none_iff q).mpr
  · intro hne
    cases hx : q.extractMax with
    | none => exact absurd ((extractMax_eq_none_iff q).mp hx) hne
    | some epq =>
      obtain ⟨e, q'⟩ := epq
      exact ⟨e, q', rfl, extractMax_max (reachable_isHeap hq) hx,
        extractMax_perm hx, .extract hq hx⟩

theorem C8_extractMax_spec_witness :
    Reachable sampleQ ∧
    ((sampleQ.heap = [] → sampleQ.extractMax = none) ∧
     (sampleQ.heap ≠ [] → ∃ e q', sampleQ.extractMax = some (e, q') ∧
       (∀ x ∈ sampleQ.heap, x.2 ≤ e.2) ∧ (e :: q'.heap).Perm sampleQ.heap ∧
       Reachable q')) :=
  ⟨sampleQ_reachable, C8_extractMax_spec sampleQ sampleQ_reachable⟩

/-- C9: every entry of a successful `computeTrustScores` result has
`netScore` exactly `positiveScore - negativeScore`, with no clamping at
zero; on the single-edge graph with `positiveWeight 0, negativeWeight 1`
the returned `netScore` is `-1`, strictly negative. -/
theorem C9_netScore_unclamped :
    (∀ (g : DGraph) (s : String) (ts : List String)
        (res : List (String × Score)),
      g.computeTrustScores s ts = .ok res →
      ∀ pr ∈ res, pr.2.netScore = pr.2.positiveScore - pr.2.negativeScore) ∧
    (∀ (g : DGraph) (s t : String) (sc : Score),
      g.computeTrustScoresPair s t = .ok sc →
      sc.netScore = sc.positiveScore - sc.negativeScore) ∧
    g1.computeTrustScores "A" ["B"] = .ok [("B", ⟨0, 1, -1⟩)] := by
  refine ⟨?_, ?_, g1_cts_B⟩
  · intro g s ts res h pr hpr
    obtain ⟨all, hall, hsub⟩ := computeTrustScores_sub h
    have hent := computeScores_entries hall pr (hsub pr hpr)
    rw [hent.2.2 _ rfl]
  · intro g s t sc h
    unfold DGraph.computeTrustScoresPair at h
    by_cases hs : s ∉ g.nodes
    · rw [if_pos hs] at h
      exact absurd h (by simp)
    · rw [if_neg hs] at h
      by_cases ht : t ∉ g.nodes
      · rw [if_pos ht] at h
        exact absurd h (by simp)
      · rw [if_neg ht] at h
        simp only [Except.ok.injEq] at h
        rw [← h]

/-- C10: querying the source itself as the only requested target raises no
error and returns the empty result — the source is silently omitted, since
the engine's result map holds no entry for the source. -/
theorem C10_source_target_omitted (g : DGraph) (s : String)
    (hs : s ∈ g.nodes) : g.computeTrustScores s [s] = .ok [] := by
  have hok := computeScores_ok_of_mem hs
  unfold DGraph.computeTrustScores
  rw [hok]
  simp only [Bind.bind, Except.bind]
  rw [if_neg (by simp)]
  rw [collectTargets, if_neg (by simpa using hs)]
  rw [computeScores_lookup_source hok]
  rfl

theorem C10_source_target_omitted_witness :
    ("A" ∈ g1.nodes) ∧ g1.computeTrustScores "A" ["A"] = .ok [] :=
  ⟨by decide, C10_source_target_omitted g1 "A" (by decide)⟩

end TTrust
